import Mathlib

/-!
Verification of the event-reconciliation engine of this repository.

The Python sources embedded here are `football_scraper.py` (the functions
`cleanup_old_matches`, `merge_with_existing_data`, `save_data`) and
`winterfell_scribe.py` (the functions `is_ancient_history` and
`update_archives`).  Pure record manipulation is translated to Lean
functions; the ambient clock values (`datetime.now()` in its several
flavours) and the random shuffle become explicit parameters.

Modelling conventions:
* a match record (a Python dict) becomes the structure `MatchRec`; the
  `source_name` field is `Option String` because the merge code explicitly
  handles persisted records that lack it, and the winterfell `_timestamp`
  metadata field is `timestamp_ms : Option Int` because football records
  never carry it;
* naive `datetime` values are compared through their exact count of
  microseconds since the epoch (Python compares naive datetimes
  field-lexicographically, which agrees with this for the valid range),
  and the aware-datetime arithmetic of `is_ancient_history` is done
  exactly over integer milliseconds (CPython uses float seconds there,
  which is exact away from the window boundary);
* `random.shuffle` is a parameter `shuffle : List String → List String`;
  theorems assume at most that it permutes its input, and concrete runs
  instantiate it with the identity permutation;
* `list(setA.union(setB))` is modelled as `(a ++ b).dedup`, a
  duplicate-free enumeration of the same union (CPython's set iteration
  order is unspecified; every use is behind the shuffle or cares only
  about membership and cardinality);
* Python `str.split` on a one-character separator is modelled by
  `List.splitOn` over the string's characters, and `int()` on the
  resulting fragments by a digits-only reader; the fragments on which
  they differ (signs, surrounding blanks) all lead to the same
  "unparseable, keep the record" outcome, via the `ValueError` branch in
  the source.
-/

/-- Team block of a record: `{"name": ..., "logo_url": ...}`. -/
structure TeamInfo where
  name : String
  logo_url : String
deriving DecidableEq, Repr

/-- One event record as persisted by either scraper.  `source_name` is
optional (legacy persisted records may lack it, `football_scraper.py`
line 516); `timestamp_ms` is the winterfell `_timestamp` field in epoch
milliseconds, absent on football records. -/
structure MatchRec where
  source_name : Option String
  source_icon_url : String
  match_title_from_api : String
  team1 : TeamInfo
  team2 : TeamInfo
  time : String
  date : String
  links : List String
  timestamp_ms : Option Int
deriving DecidableEq, Repr

/-- Placeholder logo URL (`DEFAULT_LOGO_URL` in `football_scraper.py`). -/
def DEFAULT_LOGO_URL : String :=
  "https://cdn.jsdelivr.net/gh/drnewske/tyhdsjax-nfhbqsm/logos/default.png"

/-- Retention window of `football_scraper.py`: `MATCH_CLEANUP_HOURS = 25`. -/
def MATCH_CLEANUP_HOURS : Nat := 25

/-- Retention window of `winterfell_scribe.py`: `ANCIENT_SCROLL_LIMIT = 12 * 3600` seconds. -/
def ANCIENT_SCROLL_LIMIT : Int := 12 * 3600

/-- Gregorian leap-year rule, as used by Python's `datetime`. -/
def isLeapYear (y : Nat) : Bool :=
  (y % 4 == 0 && y % 100 != 0) || y % 400 == 0

/-- Days in a month, as validated by the `datetime` constructor. -/
def daysInMonth (y m : Nat) : Nat :=
  if m = 2 then (if isLeapYear y then 29 else 28)
  else if m = 4 ∨ m = 6 ∨ m = 9 ∨ m = 11 then 30
  else 31

/-- Validity of the fields of `datetime(year, month, day, hour, minute)`;
out-of-range fields make the constructor raise `ValueError`. -/
def validDateTime (y mo d h mi : Nat) : Bool :=
  1 ≤ y && y ≤ 9999 && 1 ≤ mo && mo ≤ 12 && 1 ≤ d && d ≤ daysInMonth y mo &&
    h ≤ 23 && mi ≤ 59

/-- Days from the epoch 1970-01-01 to the civil date `y-m-d` (standard
era-based conversion; only applied to dates accepted by `validDateTime`). -/
def daysFromCivil (y m d : Nat) : Int :=
  let y' := if m ≤ 2 then y - 1 else y
  let era := y' / 400
  let yoe := y' - era * 400
  let mp := (m + 9) % 12
  let doy := (153 * mp + 2) / 5 + d - 1
  let doe := yoe * 365 + yoe / 4 - yoe / 100 + doy
  (era * 146097 + doe : Int) - 719468

/-- Microseconds since the epoch of the naive instant `y-mo-d h:mi:00`. -/
def dtToMicros (y mo d h mi : Nat) : Int :=
  daysFromCivil y mo d * 86400000000 + ((h * 3600 + mi * 60 : Nat) : Int) * 1000000

/-- Python `int()` on a fragment produced by splitting a date or time
string: digits only (the generated fields are zero-padded digit groups;
a signed or blank-padded fragment is treated as unparseable, which leads
to the same keep-the-record outcome as the `ValueError` branch). -/
def parseNatDigits (l : List Char) : Option Nat :=
  if l ≠ [] ∧ l.all (·.isDigit) then
    some (l.foldl (fun n c => n * 10 + (c.toNat - 48)) 0)
  else none

/-- Parsing of a `DD-MM-YYYY` date string together with an `HH:MM` time
string into an instant, mirroring the `try` block of
`cleanup_old_matches` (lines 62-67): split, convert each fragment to an
integer, and build a `datetime`, any failure giving `none`. -/
def parseDateTimeUs (dateStr timeStr : String) : Option Int :=
  match dateStr.toList.splitOn '-', timeStr.toList.splitOn ':' with
  | [ds, ms, ys], [hs, mis] =>
    match parseNatDigits ds, parseNatDigits ms, parseNatDigits ys,
        parseNatDigits hs, parseNatDigits mis with
    | some d, some mo, some y, some h, some mi =>
      if validDateTime y mo d h mi then some (dtToMicros y mo d h mi) else none
    | _, _, _, _, _ => none
  | _, _ => none

/-- Keep-decision of `cleanup_old_matches` for a single record:
records with empty or sentinel date/time strings, and records whose
date/time cannot be parsed into a valid `datetime`, are kept; otherwise
the record is kept if its kickoff is not strictly before the cutoff. -/
def keepMatch (m : MatchRec) (cutoff_us : Int) : Bool :=
  if m.date = "" ∨ m.time = "" ∨ m.date = "Not Found" ∨ m.time = "Not Found" then
    true
  else
    match parseDateTimeUs m.date m.time with
    | none => true
    | some t => decide (¬ t < cutoff_us)

/-- Embedding of `cleanup_old_matches` (`football_scraper.py` lines 42-88).
The cutoff instant `datetime.now() - timedelta(hours=MATCH_CLEANUP_HOURS)`
is passed in as `cutoff_us`, in microseconds since the epoch. -/
def cleanup_old_matches (ms : List MatchRec) (cutoff_us : Int) : List MatchRec :=
  ms.filter (fun m => keepMatch m cutoff_us)

/-- Identity key used by the merge lookup (`football_scraper.py` line 523):
`(match["source_name"], match["team1"]["name"], match["team2"]["name"], match["date"])`.
Records without `source_name` have no key. -/
abbrev MKey := String × String × String × String

/-- Key of a record, when it has a `source_name`. -/
def matchKey? (m : MatchRec) : Option MKey :=
  m.source_name.map (fun s => (s, m.team1.name, m.team2.name, m.date))

section Dict

variable {κ : Type} {β : Type} [DecidableEq κ]

/-- Python-dict lookup on an insertion-ordered association list. -/
def dictFind? (l : List (κ × β)) (k : κ) : Option β :=
  (l.find? (fun p => decide (p.1 = k))).map (·.2)

/-- Python-dict assignment `d[k] = v`: replace in place if the key is
present, otherwise append at the end (dicts preserve insertion order). -/
def dictInsert (l : List (κ × β)) (k : κ) (v : β) : List (κ × β) :=
  if (l.find? (fun p => decide (p.1 = k))).isSome then
    l.map (fun p => if p.1 = k then (k, v) else p)
  else
    l ++ [(k, v)]

/-- Python-dict deletion `del d[k]`. -/
def dictErase (l : List (κ × β)) (k : κ) : List (κ × β) :=
  l.filter (fun p => decide (p.1 ≠ k))

end Dict

/-- Lookup-building loop of `merge_with_existing_data` (lines 512-524):
records lacking `source_name` are skipped, the rest are keyed. -/
def buildLookup (existing : List MatchRec) : List (MKey × MatchRec) :=
  existing.foldl
    (fun lk m =>
      match matchKey? m with
      | none => lk
      | some k => dictInsert lk k m)
    []

/-- Keyed view of a record list: each record paired with its identity key,
records without a key dropped. -/
def keyedList (l : List MatchRec) : List (MKey × MatchRec) :=
  l.filterMap (fun r => (matchKey? r).map (fun k => (k, r)))

/-- Step function of the `buildLookup` fold. -/
def buildStep (lk : List (MKey × MatchRec)) (m : MatchRec) : List (MKey × MatchRec) :=
  match matchKey? m with
  | none => lk
  | some k => dictInsert lk k m

/-- Per-match merge body of `merge_with_existing_data` (lines 533-563):
replace placeholder logos by real ones, and replace the link list by a
shuffled union when the union is strictly larger.  Returns the updated
record and the `needs_update` flag. -/
def mergeRecord (shuffle : List String → List String) (ex nm : MatchRec) :
    MatchRec × Bool :=
  let u1 : Bool :=
    decide (ex.team1.logo_url = DEFAULT_LOGO_URL ∧ nm.team1.logo_url ≠ DEFAULT_LOGO_URL)
  let team1' := if u1 then { ex.team1 with logo_url := nm.team1.logo_url } else ex.team1
  let u2 : Bool :=
    decide (ex.team2.logo_url = DEFAULT_LOGO_URL ∧ nm.team2.logo_url ≠ DEFAULT_LOGO_URL)
  let team2' := if u2 then { ex.team2 with logo_url := nm.team2.logo_url } else ex.team2
  let combined := (ex.links ++ nm.links).dedup
  let u3 : Bool := decide (ex.links.length < combined.length)
  let links' := if u3 then shuffle combined else ex.links
  ({ ex with team1 := team1', team2 := team2', links := links' }, u1 || u2 || u3)

/-- Main loop of `merge_with_existing_data` (lines 530-573) over the new
batch, carrying the lookup, the accumulated output, and the new/updated
counters.  A new record lacking `source_name` would raise `KeyError` in
Python, modelled by `none`. -/
def mergeLoop (shuffle : List String → List String) :
    List MatchRec → List (MKey × MatchRec) → List MatchRec → Nat → Nat →
      Option (List MatchRec × Nat × Nat)
  | [], lk, acc, nc, uc => some (acc ++ lk.map (·.2), nc, uc)
  | nm :: rest, lk, acc, nc, uc =>
    match matchKey? nm with
    | none => none
    | some k =>
      match dictFind? lk k with
      | some ex =>
        let r := mergeRecord shuffle ex nm
        mergeLoop shuffle rest (dictErase lk k) (acc ++ [r.1]) nc
          (if r.2 then uc + 1 else uc)
      | none => mergeLoop shuffle rest lk (acc ++ [nm]) (nc + 1) uc

/-- Embedding of `merge_with_existing_data` (`football_scraper.py`
lines 505-576): clean the persisted collection, build the keyed lookup,
upsert the batch, and append the unclaimed persisted records.  Returns
the merged collection with the `new_count` and `updated_count` totals. -/
def merge_with_existing_data (shuffle : List String → List String)
    (new_matches existing_matches : List MatchRec) (cutoff_us : Int) :
    Option (List MatchRec × Nat × Nat) :=
  mergeLoop shuffle new_matches (buildLookup (cleanup_old_matches existing_matches cutoff_us))
    [] 0 0

/-- Outcome of the output-file write: either the whole serialized text is
written, or an exception interrupts `json.dump` after `n` characters. -/
inductive WriteOutcome where
  | success : WriteOutcome
  | failAfter : Nat → WriteOutcome
deriving DecidableEq, Repr

/-- Embedding of `save_data` (`football_scraper.py` lines 579-586) at the
file-system level.  `open(OUTPUT_FILE, "w")` truncates the file as soon as
it succeeds, before any byte of the new payload is written; `json.dump`
then either writes everything or is interrupted, leaving the portion
already flushed.  The function returns the file content after the call
(the previous content `prev` is destroyed by the truncating open in both
branches, which is exactly the behaviour under scrutiny). -/
def save_data (prev : Option String) (serialized : String) :
    WriteOutcome → Option String
  | .success => some serialized
  | .failAfter n => some (String.mk (serialized.toList.take n))

/-- Embedding of `is_ancient_history` (`winterfell_scribe.py` lines 46-61):
falsy timestamps (absent or zero) are never ancient; otherwise the event
is ancient exactly when its age exceeds `ANCIENT_SCROLL_LIMIT` seconds.
`now_ms` is `datetime.now(timezone.utc)` in epoch milliseconds. -/
def is_ancient_history (event_timestamp_ms : Option Int) (now_ms : Int) : Bool :=
  match event_timestamp_ms with
  | none => false
  | some t =>
    if t = 0 then false
    else decide (now_ms - t > ANCIENT_SCROLL_LIMIT * 1000)

/-- Legacy-record staleness check of `update_archives` (lines 208-227):
when `_timestamp` is falsy, try to parse the `date`/`time` strings and
compare against `datetime.now()`; empty strings or any parse failure mean
the record is not old (the `except: pass` branch).  `now_us` is the naive
local clock in epoch microseconds. -/
def legacy_is_old (r : MatchRec) (now_us : Int) : Bool :=
  if r.date ≠ "" ∧ r.time ≠ "" then
    match parseDateTimeUs r.date r.time with
    | some dt_us => decide (now_us - dt_us > ANCIENT_SCROLL_LIMIT * 1000000)
    | none => false
  else false

/-- Removal decision of the cleanup phase of `update_archives`
(lines 205-227): use `is_ancient_history` when `_timestamp` is truthy,
else fall back to the legacy date/time parse. -/
def record_is_old (r : MatchRec) (now_ms now_us : Int) : Bool :=
  match r.timestamp_ms with
  | some t => if t ≠ 0 then is_ancient_history (some t) now_ms else legacy_is_old r now_us
  | none => legacy_is_old r now_us

/-- Stable insertion of `x` after every already-placed element whose sort
key is not larger, modelling one step of Python's stable `list.sort`. -/
def insertByTs (x : MatchRec) : List MatchRec → List MatchRec
  | [] => [x]
  | y :: ys =>
    if y.timestamp_ms.getD 0 ≤ x.timestamp_ms.getD 0 then y :: insertByTs x ys
    else x :: y :: ys

/-- Python's stable ascending sort by `x.get("_timestamp", 0) or 0`
(line 246), as left-to-right stable insertion. -/
def sortByTs (l : List MatchRec) : List MatchRec :=
  l.foldl (fun acc x => insertByTs x acc) []

/-- Embedding of `update_archives` (`winterfell_scribe.py` lines 177-250):
upsert every entry of the new batch into the archives keyed by `match_id`
(wholesale replacement of the stored record, line 188), drop the records
the cleanup phase finds old, and sort the survivors by timestamp.  The
archives and the batch are insertion-ordered maps from `match_id`. -/
def update_archives (archives new_data : List (String × MatchRec))
    (now_ms now_us : Int) : List MatchRec :=
  let merged := new_data.foldl (fun acc p => dictInsert acc p.1 p.2) archives
  let kept := (merged.filter (fun p => !record_is_old p.2 now_ms now_us)).map (·.2)
  sortByTs kept

/-- Modelled from the spec: the Name Normalizer of §4.1 has no
implementation under `src/` (the merge code keys on raw team names), so
it is defined here from the spec's words.  Character step: whitespace
becomes a plain space, letters are lowercased (ASCII, as `str.lower`
on these names). -/
def normChar (c : Char) : Char :=
  if c.isWhitespace then ' ' else c.toLower

/-- Modelled from the spec: the feminine-designator forms that §4.1 maps
to a trailing ` women` — a standalone `w`, a parenthesized `(w)`, or a
trailing `female`. -/
def isFemTok (t : List Char) : Bool :=
  t == ['w'] || t == ['(', 'w', ')'] || t == ['f', 'e', 'm', 'a', 'l', 'e']

/-- Canonical feminine token produced by the normalizer. -/
def womenTok : List Char := ['w', 'o', 'm', 'e', 'n']

/-- Replace the last token by ` women` when it is a feminine designator. -/
def fixLast : List (List Char) → List (List Char)
  | [] => []
  | [t] => [if isFemTok t then womenTok else t]
  | t :: t' :: rest => t :: fixLast (t' :: rest)

/-- Modelled from the spec: tokenization of §4.1 — lowercase, then split
on whitespace discarding empty fragments (this realizes both the trim and
the collapse of repeated whitespace). -/
def normTokens (l : List Char) : List (List Char) :=
  ((l.map normChar).splitOn ' ').filter (fun t => !t.isEmpty)

/-- Modelled from the spec: the §4.1 Name Normalizer — trim and lowercase,
canonicalize a feminine-designator suffix to a trailing ` women`, collapse
repeated whitespace. -/
def normalizeName (s : String) : String :=
  String.mk ([' '].intercalate (fixLast (normTokens s.toList)))

/-- Identity key as the spec's invariant (§3) words it: source name plus
the two normalized team names plus the date. -/
def normalizedKey (m : MatchRec) : Option MKey :=
  m.source_name.map (fun s => (s, normalizeName m.team1.name, normalizeName m.team2.name, m.date))

/-! Lemmas about the character-level normalization step. -/

theorem char_ofNat_toNat_valid (n : Nat) (h1 : 97 ≤ n) (h2 : n ≤ 122) :
    (Char.ofNat n).toNat = n := by
  unfold Char.ofNat
  rw [dif_pos]
  · rfl
  · exact Or.inl (by omega)

theorem toLower_eq_ite (d : Char) :
    d.toLower = if d.toNat ≥ 65 ∧ d.toNat ≤ 90 then Char.ofNat (d.toNat + 32) else d := rfl

theorem toLower_toLower (c : Char) : c.toLower.toLower = c.toLower := by
  by_cases h : c.toNat ≥ 65 ∧ c.toNat ≤ 90
  · rw [toLower_eq_ite c, if_pos h, toLower_eq_ite, if_neg]
    have hv : (Char.ofNat (c.toNat + 32)).toNat = c.toNat + 32 :=
      char_ofNat_toNat_valid _ (by omega) (by omega)
    omega
  · rw [toLower_eq_ite c, if_neg h, toLower_eq_ite, if_neg h]

theorem isWhitespace_toNat {c : Char} (h : c.isWhitespace = true) :
    c.toNat = 32 ∨ c.toNat = 9 ∨ c.toNat = 13 ∨ c.toNat = 10 := by
  simp only [Char.isWhitespace, Bool.or_eq_true, decide_eq_true_eq] at h
  rcases h with ((h | h) | h) | h <;> subst h <;> simp

theorem toLower_not_whitespace {c : Char} (h : c.isWhitespace = false) :
    c.toLower.isWhitespace = false := by
  by_cases hr : c.toNat ≥ 65 ∧ c.toNat ≤ 90
  · rw [toLower_eq_ite, if_pos hr]
    have hv : (Char.ofNat (c.toNat + 32)).toNat = c.toNat + 32 :=
      char_ofNat_toNat_valid _ (by omega) (by omega)
    by_contra hw
    rcases isWhitespace_toNat (by simpa using hw) with h' | h' | h' | h' <;> omega
  · rw [toLower_eq_ite, if_neg hr]; exact h

theorem normChar_normChar (c : Char) : normChar (normChar c) = normChar c := by
  by_cases hw : c.isWhitespace
  · simp [normChar, hw]
  · have hw' : c.isWhitespace = false := by simpa using hw
    simp only [normChar, hw', if_neg, Bool.false_eq_true, if_false]
    rw [if_neg (by simp [toLower_not_whitespace hw'])]
    exact toLower_toLower c

theorem normChar_space : normChar ' ' = ' ' := by decide

/-! Lemmas about tokenization: chunks of `splitOn` contain no separator,
and membership in an intercalation. -/

theorem splitOnP_chunk_pure {α : Type} (p : α → Bool) :
    ∀ (l : List α), ∀ t ∈ l.splitOnP p, ∀ x ∈ t, ¬ p x = true := by
  intro l
  induction l with
  | nil =>
    intro t ht x hx
    rw [List.splitOnP_nil] at ht
    simp only [List.mem_singleton] at ht
    subst ht
    simp at hx
  | cons a l ih =>
    intro t ht x hx
    rw [List.splitOnP_cons] at ht
    by_cases hpa : p a
    · rw [if_pos hpa] at ht
      rcases List.mem_cons.mp ht with h | h
      · subst h; simp at hx
      · exact ih t h x hx
    · rw [if_neg hpa] at ht
      rcases h' : l.splitOnP p with _ | ⟨hd, tl⟩
      · exact absurd h' (List.splitOnP_ne_nil p l)
      · rw [h'] at ht
        simp only [List.modifyHead] at ht
        rcases List.mem_cons.mp ht with h | h
        · subst h
          rcases List.mem_cons.mp hx with hxa | hxh
          · subst hxa; exact fun hc => hpa hc
          · exact ih hd (h' ▸ List.mem_cons_self hd tl) x hxh
        · exact ih t (h' ▸ List.mem_cons_of_mem hd h) x hx

theorem splitOn_chunk_pure {α : Type} [DecidableEq α] (a : α) (l : List α) :
    ∀ t ∈ l.splitOn a, a ∉ t := by
  intro t ht hmem
  exact splitOnP_chunk_pure (· == a) l t ht a hmem (by simp)

theorem mem_intersperse_of_mem {α : Type} (sep : List α) :
    ∀ (ts : List (List α)), ∀ t ∈ ts, t ∈ ts.intersperse sep := by
  intro ts
  induction ts with
  | nil => intro t ht; simp at ht
  | cons b tl ih =>
    intro t ht
    cases tl with
    | nil => simpa using ht
    | cons c tl' =>
      rw [List.intersperse_cons_cons]
      rcases List.mem_cons.mp ht with h | h
      · exact h ▸ List.mem_cons_self _ _
      · exact List.mem_cons_of_mem _ (List.mem_cons_of_mem _ (ih t h))

theorem mem_of_mem_intersperse {α : Type} (sep : List α) :
    ∀ (ts : List (List α)), ∀ t ∈ ts.intersperse sep, t = sep ∨ t ∈ ts := by
  intro ts
  induction ts with
  | nil => intro t ht; simp at ht
  | cons b tl ih =>
    intro t ht
    cases tl with
    | nil =>
      simp only [List.intersperse_singleton, List.mem_singleton] at ht
      exact Or.inr (ht ▸ List.mem_singleton_self b)
    | cons c tl' =>
      rw [List.intersperse_cons_cons] at ht
      rcases List.mem_cons.mp ht with h | h
      · exact Or.inr (h ▸ List.mem_cons_self _ _)
      · rcases List.mem_cons.mp h with h' | h'
        · exact Or.inl h'
        · rcases ih t h' with h'' | h''
          · exact Or.inl h''
          · exact Or.inr (List.mem_cons_of_mem _ h'')

theorem mem_intercalate_single {α : Type} (a : α) (ts : List (List α)) (y : α)
    (hy : y ∈ [a].intercalate ts) : y = a ∨ ∃ t ∈ ts, y ∈ t := by
  rw [List.intercalate] at hy
  rcases List.mem_flatten.mp hy with ⟨t, ht, hyt⟩
  rcases mem_of_mem_intersperse [a] ts t ht with h | h
  · subst h
    simp only [List.mem_singleton] at hyt
    exact Or.inl hyt
  · exact Or.inr ⟨t, h, hyt⟩

theorem mem_of_mem_chunk_intercalate {α : Type} [DecidableEq α] (a : α) (l : List α)
    {t : List α} (ht : t ∈ l.splitOn a) {y : α} (hy : y ∈ t) : y ∈ l := by
  have h := List.intercalate_splitOn l a
  rw [← h, List.intercalate]
  exact List.mem_flatten.mpr ⟨t, mem_intersperse_of_mem [a] _ t ht, hy⟩

/-! Lemmas about the trailing feminine-designator replacement. -/

theorem isFemTok_womenTok : isFemTok womenTok = false := by decide

theorem womenTok_ne_nil : womenTok ≠ [] := by decide

theorem space_not_mem_womenTok : ' ' ∉ womenTok := by decide

theorem normChar_fixed_womenTok : ∀ y ∈ womenTok, normChar y = y := by decide

theorem fixLast_nil_iff (ts : List (List Char)) : fixLast ts = [] ↔ ts = [] := by
  cases ts with
  | nil => simp [fixLast]
  | cons t tl =>
    cases tl with
    | nil => simp [fixLast]
    | cons t' tl' => simp [fixLast]

theorem mem_fixLast (ts : List (List Char)) (t : List Char) (ht : t ∈ fixLast ts) :
    t ∈ ts ∨ t = womenTok := by
  induction ts with
  | nil => simp [fixLast] at ht
  | cons u tl ih =>
    cases tl with
    | nil =>
      simp only [fixLast, List.mem_singleton] at ht
      by_cases hf : isFemTok u
      · rw [if_pos hf] at ht; exact Or.inr ht
      · rw [if_neg hf] at ht; exact Or.inl (ht ▸ List.mem_singleton_self u)
    | cons u' tl' =>
      rw [fixLast] at ht
      rcases List.mem_cons.mp ht with h | h
      · exact Or.inl (h ▸ List.mem_cons_self _ _)
      · rcases ih h with h' | h'
        · exact Or.inl (List.mem_cons_of_mem _ h')
        · exact Or.inr h'

theorem fixLast_fixLast (ts : List (List Char)) : fixLast (fixLast ts) = fixLast ts := by
  induction ts with
  | nil => rfl
  | cons u tl ih =>
    cases tl with
    | nil =>
      by_cases hf : isFemTok u
      · simp [fixLast, hf, isFemTok_womenTok]
      · simp [fixLast, hf]
    | cons u' tl' =>
      have hne : fixLast (u' :: tl') ≠ [] := by
        simp [fixLast_nil_iff]
      rcases h' : fixLast (u' :: tl') with _ | ⟨v, vs⟩
      · exact absurd h' hne
      · rw [fixLast, h', fixLast, ← h', ih, h']

/-! Facts about the tokens produced by `normTokens`. -/

theorem normTokens_ne_nil {l : List Char} {t : List Char} (ht : t ∈ normTokens l) :
    t ≠ [] := by
  rw [normTokens] at ht
  have := (List.mem_filter.mp ht).2
  intro h
  subst h
  simp at this

theorem normTokens_pure {l : List Char} {t : List Char} (ht : t ∈ normTokens l) :
    ' ' ∉ t := by
  rw [normTokens] at ht
  exact splitOn_chunk_pure ' ' (l.map normChar) t (List.mem_filter.mp ht).1

theorem normTokens_fixed {l : List Char} {t : List Char} (ht : t ∈ normTokens l) :
    ∀ y ∈ t, normChar y = y := by
  rw [normTokens] at ht
  intro y hy
  have hmem : y ∈ l.map normChar :=
    mem_of_mem_chunk_intercalate ' ' (l.map normChar) (List.mem_filter.mp ht).1 hy
  rcases List.mem_map.mp hmem with ⟨x, _, hx⟩
  rw [← hx]
  exact normChar_normChar x

theorem fixLast_tok_ne_nil {l : List Char} {t : List Char}
    (ht : t ∈ fixLast (normTokens l)) : t ≠ [] := by
  rcases mem_fixLast _ t ht with h | h
  · exact normTokens_ne_nil h
  · exact h ▸ womenTok_ne_nil

theorem fixLast_tok_pure {l : List Char} {t : List Char}
    (ht : t ∈ fixLast (normTokens l)) : ' ' ∉ t := by
  rcases mem_fixLast _ t ht with h | h
  · exact normTokens_pure h
  · exact h ▸ space_not_mem_womenTok

theorem fixLast_tok_fixed {l : List Char} {t : List Char}
    (ht : t ∈ fixLast (normTokens l)) : ∀ y ∈ t, normChar y = y := by
  rcases mem_fixLast _ t ht with h | h
  · exact normTokens_fixed h
  · exact h ▸ normChar_fixed_womenTok

/-- Tokenizing the normalizer's own output returns its token list. -/
theorem normTokens_normalized (l : List Char) (h : fixLast (normTokens l) ≠ []) :
    normTokens ([' '].intercalate (fixLast (normTokens l))) = fixLast (normTokens l) := by
  have hfix : ∀ y ∈ [' '].intercalate (fixLast (normTokens l)), normChar y = y := by
    intro y hy
    rcases mem_intercalate_single ' ' _ y hy with h' | ⟨t, ht, hyt⟩
    · exact h' ▸ normChar_space
    · exact fixLast_tok_fixed ht y hyt
  have hmap : ([' '].intercalate (fixLast (normTokens l))).map normChar
      = [' '].intercalate (fixLast (normTokens l)) := by
    rw [List.map_congr_left hfix, List.map_id']
  rw [normTokens, hmap,
    List.splitOn_intercalate _ ' ' (fun t ht => fixLast_tok_pure ht) h]
  apply List.filter_eq_self.mpr
  intro t ht
  have := fixLast_tok_ne_nil ht
  simpa [List.isEmpty_iff] using this

/-- Claim C9: the Name Normalizer is idempotent — normalizing an already
normalized team name changes nothing: `normalize (normalize x) = normalize x`
for every string `x` (normalizer modelled from the spec, §4.1). -/
theorem c9_normalizer_idempotent (s : String) :
    normalizeName (normalizeName s) = normalizeName s := by
  rcases h : fixLast (normTokens s.toList) with _ | ⟨u, us⟩
  · have h0 : normalizeName s = String.mk [] := by rw [normalizeName, h]; rfl
    rw [h0]
    rfl
  · have hne : fixLast (normTokens s.toList) ≠ [] := by
      rw [h]; exact List.cons_ne_nil u us
    conv_lhs => rw [normalizeName, normalizeName]
    rw [show (String.mk ([' '].intercalate (fixLast (normTokens s.toList)))).toList
        = [' '].intercalate (fixLast (normTokens s.toList)) from rfl]
    rw [normTokens_normalized _ hne, fixLast_fixLast, normalizeName]

/-! Lemmas about the Python-dict model on association lists. -/

section DictLemmas

variable {κ : Type} {β : Type} [DecidableEq κ]

theorem dictFind?_mem {l : List (κ × β)} {k : κ} {v : β}
    (h : dictFind? l k = some v) : (k, v) ∈ l := by
  rw [dictFind?] at h
  rcases Option.map_eq_some'.mp h with ⟨p, hp, hv⟩
  have hk : p.1 = k := by simpa using List.find?_some hp
  have hmem := List.mem_of_find?_eq_some hp
  have hpkv : p = (k, v) := by
    cases p
    simp only at hk hv
    rw [hk, hv]
  exact hpkv ▸ hmem

theorem dictFind?_cons (p : κ × β) (l : List (κ × β)) (k : κ) :
    dictFind? (p :: l) k = if p.1 = k then some p.2 else dictFind? l k := by
  rw [dictFind?, List.find?_cons]
  by_cases hp : p.1 = k
  · simp [hp]
  · simp [hp, dictFind?]

theorem dictErase_cons (p : κ × β) (l : List (κ × β)) (k : κ) :
    dictErase (p :: l) k = if p.1 = k then dictErase l k else p :: dictErase l k := by
  rw [dictErase, List.filter_cons]
  by_cases hp : p.1 = k
  · simp [hp, dictErase]
  · simp [hp, dictErase]

theorem dictFind?_eq_none_iff {l : List (κ × β)} {k : κ} :
    dictFind? l k = none ↔ ∀ p ∈ l, p.1 ≠ k := by
  rw [dictFind?, Option.map_eq_none', List.find?_eq_none]
  constructor
  · intro h p hp
    exact fun hc => by simpa [hc] using h p hp
  · intro h p hp
    simpa using h p hp

theorem dictFind?_isSome_of_mem_keys {l : List (κ × β)} {k : κ}
    (h : k ∈ l.map Prod.fst) : ∃ v, dictFind? l k = some v := by
  rcases h' : dictFind? l k with _ | v
  · rcases List.mem_map.mp h with ⟨p, hp, hk⟩
    exact absurd hk (dictFind?_eq_none_iff.mp h' p hp)
  · exact ⟨v, rfl⟩

theorem mem_keys_of_dictFind? {l : List (κ × β)} {k : κ} {v : β}
    (h : dictFind? l k = some v) : k ∈ l.map Prod.fst :=
  List.mem_map.mpr ⟨(k, v), dictFind?_mem h, rfl⟩

theorem dictFind?_of_mem_nodup {l : List (κ × β)} {k : κ} {v : β}
    (hnd : (l.map Prod.fst).Nodup) (hmem : (k, v) ∈ l) :
    dictFind? l k = some v := by
  induction l with
  | nil => simp at hmem
  | cons p l ih =>
    rcases List.mem_cons.mp hmem with h | h
    · rw [← h, dictFind?, List.find?_cons_of_pos _ (by simp)]
      rfl
    · have hk : p.1 ≠ k := by
        intro hc
        have : k ∈ l.map Prod.fst := List.mem_map.mpr ⟨(k, v), h, rfl⟩
        rw [List.map_cons, List.nodup_cons, hc] at hnd
        exact hnd.1 this
      rw [dictFind?, List.find?_cons_of_neg _ (by simpa using hk), ← dictFind?]
      exact ih (by rw [List.map_cons, List.nodup_cons] at hnd; exact hnd.2) h

theorem mem_dictErase {l : List (κ × β)} {k : κ} {p : κ × β} :
    p ∈ dictErase l k ↔ p ∈ l ∧ p.1 ≠ k := by
  rw [dictErase, List.mem_filter]
  simp

theorem dictFind?_dictErase_ne {l : List (κ × β)} {k k' : κ} (h : k' ≠ k) :
    dictFind? (dictErase l k) k' = dictFind? l k' := by
  induction l with
  | nil => rfl
  | cons p l ih =>
    rw [dictErase_cons, dictFind?_cons]
    by_cases hp : p.1 = k
    · rw [if_pos hp, if_neg (by rw [hp]; exact fun hc => h hc.symm), ih]
    · rw [if_neg hp, dictFind?_cons]
      by_cases hk' : p.1 = k'
      · rw [if_pos hk', if_pos hk']
      · rw [if_neg hk', if_neg hk', ih]

theorem keys_dictErase_not_mem (l : List (κ × β)) (k : κ) :
    k ∉ (dictErase l k).map Prod.fst := by
  intro h
  rcases List.mem_map.mp h with ⟨p, hp, hk⟩
  exact (mem_dictErase.mp hp).2 hk

theorem keys_dictErase_nodup {l : List (κ × β)} (k : κ)
    (h : (l.map Prod.fst).Nodup) : ((dictErase l k).map Prod.fst).Nodup :=
  ((List.filter_sublist l).map Prod.fst).nodup h

theorem dictErase_eq_self {l : List (κ × β)} {k : κ}
    (h : ∀ p ∈ l, p.1 ≠ k) : dictErase l k = l :=
  List.filter_eq_self.mpr (fun p hp => by simpa using h p hp)

theorem mem_dictInsert {l : List (κ × β)} {k : κ} {v : β} {p : κ × β}
    (h : p ∈ dictInsert l k v) : p = (k, v) ∨ p ∈ l := by
  rw [dictInsert] at h
  by_cases hf : (l.find? (fun p => decide (p.1 = k))).isSome
  · rw [if_pos hf] at h
    rcases List.mem_map.mp h with ⟨q, hq, hqp⟩
    by_cases hqk : q.1 = k
    · rw [if_pos hqk] at hqp; exact Or.inl hqp.symm
    · rw [if_neg hqk] at hqp; exact Or.inr (hqp ▸ hq)
  · rw [if_neg hf] at h
    rcases List.mem_append.mp h with h' | h'
    · exact Or.inr h'
    · exact Or.inl (List.mem_singleton.mp h')

theorem keys_dictInsert (l : List (κ × β)) (k : κ) (v : β) (k' : κ) :
    k' ∈ (dictInsert l k v).map Prod.fst ↔ k' = k ∨ k' ∈ l.map Prod.fst := by
  rw [dictInsert]
  by_cases hf : (l.find? (fun p => decide (p.1 = k))).isSome
  · rw [if_pos hf]
    constructor
    · intro h
      rcases List.mem_map.mp h with ⟨q, hq, hqk⟩
      rcases mem_dictInsert (l := l) (k := k) (v := v)
        (p := q) (by rw [dictInsert, if_pos hf]; exact hq) with h' | h'
      · left; rw [← hqk, h']
      · right; exact List.mem_map.mpr ⟨q, h', hqk⟩
    · intro h
      rcases h with h | h
      · rcases Option.isSome_iff_exists.mp hf with ⟨q, hq⟩
        have hqk : q.1 = k := by simpa using List.find?_some hq
        refine List.mem_map.mpr ⟨(k, v), ?_, h.symm⟩
        exact List.mem_map.mpr ⟨q, List.mem_of_find?_eq_some hq, by rw [if_pos hqk]⟩
      · rcases List.mem_map.mp h with ⟨q, hq, hqk⟩
        by_cases hqk' : q.1 = k
        · refine List.mem_map.mpr ⟨(k, v), ?_, by rw [← hqk, hqk']⟩
          exact List.mem_map.mpr ⟨q, hq, by rw [if_pos hqk']⟩
        · exact List.mem_map.mpr ⟨q, List.mem_map.mpr ⟨q, hq, by rw [if_neg hqk']⟩, hqk⟩
  · rw [if_neg hf]
    rw [List.map_append, List.mem_append]
    simp [or_comm]

theorem keys_dictInsert_nodup {l : List (κ × β)} {k : κ} {v : β}
    (h : (l.map Prod.fst).Nodup) : ((dictInsert l k v).map Prod.fst).Nodup := by
  rw [dictInsert]
  by_cases hf : (l.find? (fun p => decide (p.1 = k))).isSome
  · rw [if_pos hf]
    have : (l.map (fun p => if p.1 = k then (k, v) else p)).map Prod.fst
        = l.map Prod.fst := by
      rw [List.map_map]
      apply List.map_congr_left
      intro p _
      by_cases hp : p.1 = k
      · simp [hp]
      · simp [hp]
    rw [this]
    exact h
  · rw [if_neg hf, List.map_append, List.nodup_append]
    refine ⟨h, List.nodup_singleton k, ?_⟩
    intro a ha hb
    rcases List.mem_singleton.mp hb with rfl
    rcases dictFind?_isSome_of_mem_keys ha with ⟨w, hw⟩
    rw [dictFind?] at hw
    rcases Option.map_eq_some'.mp hw with ⟨p, hp, _⟩
    exact absurd (Option.isSome_iff_exists.mpr ⟨p, hp⟩) hf

theorem dictInsert_of_fresh {l : List (κ × β)} {k : κ} (v : β)
    (h : ∀ p ∈ l, p.1 ≠ k) : dictInsert l k v = l ++ [(k, v)] := by
  rw [dictInsert, if_neg]
  rw [Option.isSome_iff_exists]
  rintro ⟨p, hp⟩
  exact h p (List.mem_of_find?_eq_some hp) (by simpa using List.find?_some hp)

theorem dictFind?_dictInsert_self (l : List (κ × β)) (k : κ) (v : β) :
    dictFind? (dictInsert l k v) k = some v := by
  rw [dictInsert]
  by_cases hf : (l.find? (fun p => decide (p.1 = k))).isSome
  · rw [if_pos hf]
    induction l with
    | nil => simp at hf
    | cons p l ih =>
      by_cases hp : p.1 = k
      · rw [List.map_cons, if_pos hp, dictFind?, List.find?_cons_of_pos _ (by simp)]
        rfl
      · rw [List.find?_cons_of_neg _ (by simpa using hp)] at hf
        rw [List.map_cons, if_neg hp, dictFind?,
          List.find?_cons_of_neg _ (by simpa using hp), ← dictFind?]
        exact ih hf
  · rw [if_neg hf, dictFind?, List.find?_append]
    have hnone : l.find? (fun p => decide (p.1 = k)) = none :=
      Option.not_isSome_iff_eq_none.mp hf
    rw [hnone]
    simp

theorem dictFind?_map_replace_ne {k k' : κ} (v : β) (h : k' ≠ k) :
    ∀ (l : List (κ × β)),
      dictFind? (l.map (fun p => if p.1 = k then (k, v) else p)) k' = dictFind? l k'
  | [] => rfl
  | p :: l => by
    rw [List.map_cons, dictFind?_cons, dictFind?_cons]
    by_cases hp : p.1 = k
    · rw [if_pos hp, if_neg (show ¬ (k, v).1 = k' from fun hc => h hc.symm),
        if_neg (by rw [hp]; exact fun hc => h hc.symm)]
      exact dictFind?_map_replace_ne v h l
    · rw [if_neg hp]
      by_cases hpk' : p.1 = k'
      · rw [if_pos hpk', if_pos hpk']
      · rw [if_neg hpk', if_neg hpk']
        exact dictFind?_map_replace_ne v h l

theorem dictFind?_dictInsert_ne (l : List (κ × β)) {k k' : κ} (v : β) (h : k' ≠ k) :
    dictFind? (dictInsert l k v) k' = dictFind? l k' := by
  rw [dictInsert]
  by_cases hf : (l.find? (fun p => decide (p.1 = k))).isSome
  · rw [if_pos hf]
    exact dictFind?_map_replace_ne v h l
  · rw [if_neg hf, dictFind?, List.find?_append, dictFind?]
    rcases h' : l.find? (fun p => decide (p.1 = k')) with _ | q
    · rw [h', Option.none_or]
      have hd : (decide ((k, v).1 = k')) = false := decide_eq_false (fun hc => h hc.symm)
      simp [List.find?_cons, hd]
    · rw [h']
      rfl

end DictLemmas

/-! Lemmas about `buildLookup`. -/

theorem buildLookup_eq_foldl (l : List MatchRec) :
    buildLookup l = l.foldl buildStep [] := rfl

theorem buildFold_entryInv :
    ∀ (l : List MatchRec) (acc : List (MKey × MatchRec)),
      (∀ p ∈ acc, matchKey? p.2 = some p.1) →
      ∀ p ∈ l.foldl buildStep acc, matchKey? p.2 = some p.1
  | [], acc, hacc => hacc
  | m :: l, acc, hacc => by
    rw [List.foldl_cons]
    apply buildFold_entryInv l
    intro p hp
    rw [buildStep] at hp
    rcases hk : matchKey? m with _ | k
    · rw [hk] at hp
      exact hacc p hp
    · rw [hk] at hp
      rcases mem_dictInsert hp with h | h
      · rw [h]
        exact hk
      · exact hacc p h

theorem buildLookup_entryInv (l : List MatchRec) :
    ∀ p ∈ buildLookup l, matchKey? p.2 = some p.1 :=
  buildFold_entryInv l [] (by intro p hp; simp at hp)

theorem buildFold_keys_nodup :
    ∀ (l : List MatchRec) (acc : List (MKey × MatchRec)),
      (acc.map Prod.fst).Nodup →
      ((l.foldl buildStep acc).map Prod.fst).Nodup
  | [], _, hacc => hacc
  | m :: l, acc, hacc => by
    rw [List.foldl_cons]
    apply buildFold_keys_nodup l
    rw [buildStep]
    rcases hk : matchKey? m with _ | k
    · exact hacc
    · exact keys_dictInsert_nodup hacc

theorem buildLookup_keys_nodup (l : List MatchRec) :
    ((buildLookup l).map Prod.fst).Nodup :=
  buildFold_keys_nodup l [] List.nodup_nil

theorem buildFold_key_covered :
    ∀ (l : List MatchRec) (acc : List (MKey × MatchRec)) (k : MKey),
      (k ∈ acc.map Prod.fst ∨ ∃ r ∈ l, matchKey? r = some k) →
      k ∈ (l.foldl buildStep acc).map Prod.fst
  | [], acc, k, h => by
    rcases h with h | ⟨r, hr, _⟩
    · exact h
    · simp at hr
  | m :: l, acc, k, h => by
    rw [List.foldl_cons]
    apply buildFold_key_covered l
    rcases h with h | ⟨r, hr, hkey⟩
    · left
      rw [buildStep]
      rcases hk : matchKey? m with _ | k'
      · exact h
      · exact (keys_dictInsert acc k' m k).mpr (Or.inr h)
    · rcases List.mem_cons.mp hr with h' | h'
      · left
        rw [buildStep, ← h', hkey]
        exact (keys_dictInsert acc k r k).mpr (Or.inl rfl)
      · exact Or.inr ⟨r, h', hkey⟩

theorem buildLookup_key_covered {l : List MatchRec} {r : MatchRec} {k : MKey}
    (hr : r ∈ l) (hk : matchKey? r = some k) :
    k ∈ (buildLookup l).map Prod.fst :=
  buildFold_key_covered l [] k (Or.inr ⟨r, hr, hk⟩)

theorem keyedList_keys (l : List MatchRec) :
    (keyedList l).map Prod.fst = l.filterMap matchKey? := by
  induction l with
  | nil => rfl
  | cons r l ih =>
    rw [keyedList, List.filterMap_cons]
    rcases hk : matchKey? r with _ | k
    · rw [List.filterMap_cons, hk]
      exact ih
    · rw [List.filterMap_cons, hk]
      simpa using ih

theorem keyedList_cons_none {m : MatchRec} (hm : matchKey? m = none) (l : List MatchRec) :
    keyedList (m :: l) = keyedList l := by
  simp [keyedList, List.filterMap_cons, hm]

theorem keyedList_cons_some {m : MatchRec} {km : MKey} (hm : matchKey? m = some km)
    (l : List MatchRec) : keyedList (m :: l) = (km, m) :: keyedList l := by
  simp [keyedList, List.filterMap_cons, hm]

theorem buildFold_eq_append_keyedList :
    ∀ (l : List MatchRec) (acc : List (MKey × MatchRec)),
      (l.filterMap matchKey?).Nodup →
      (∀ k ∈ l.filterMap matchKey?, k ∉ acc.map Prod.fst) →
      l.foldl buildStep acc = acc ++ keyedList l
  | [], acc, _, _ => by simp [keyedList]
  | m :: l, acc, hnd, hdisj => by
    rw [List.foldl_cons]
    rcases hk : matchKey? m with _ | k
    · simp only [buildStep, hk]
      rw [keyedList_cons_none hk]
      rw [List.filterMap_cons, hk] at hnd hdisj
      exact buildFold_eq_append_keyedList l acc hnd hdisj
    · simp only [buildStep, hk]
      rw [List.filterMap_cons, hk] at hnd hdisj
      rw [List.nodup_cons] at hnd
      have hfresh : ∀ p ∈ acc, p.1 ≠ k := by
        intro p hp hc
        exact hdisj k (List.mem_cons_self _ _) (List.mem_map.mpr ⟨p, hp, hc⟩)
      rw [dictInsert_of_fresh m hfresh]
      rw [keyedList_cons_some hk]
      rw [buildFold_eq_append_keyedList l (acc ++ [(k, m)]) hnd.2 ?_]
      · simp
      · intro k' hk' hmem
        rw [List.map_append, List.mem_append] at hmem
        rcases hmem with h | h
        · exact hdisj k' (List.mem_cons_of_mem _ hk') h
        · simp only [List.map_cons, List.map_nil, List.mem_singleton] at h
          exact hnd.1 (h ▸ hk')

theorem buildLookup_eq_keyedList {l : List MatchRec}
    (hnd : (l.filterMap matchKey?).Nodup) : buildLookup l = keyedList l := by
  rw [buildLookup_eq_foldl, buildFold_eq_append_keyedList l [] hnd (by simp), List.nil_append]

theorem dictFind?_keyedList {l : List MatchRec} {r : MatchRec} {k : MKey}
    (hnd : (l.filterMap matchKey?).Nodup) (hr : r ∈ l) (hk : matchKey? r = some k) :
    dictFind? (keyedList l) k = some r := by
  induction l with
  | nil => simp at hr
  | cons m l ih =>
    rcases hm : matchKey? m with _ | km
    · rw [keyedList_cons_none hm]
      rw [List.filterMap_cons, hm] at hnd
      rcases List.mem_cons.mp hr with h | h
      · rw [← h] at hm
        rw [hm] at hk
        cases hk
      · exact ih hnd h
    · rw [keyedList_cons_some hm]
      rw [List.filterMap_cons, hm, List.nodup_cons] at hnd
      rcases List.mem_cons.mp hr with h | h
      · subst h
        rw [hm] at hk
        cases hk
        rw [dictFind?_cons, if_pos rfl]
      · by_cases hkk : km = k
        · exfalso
          apply hnd.1
          rw [hkk]
          exact List.mem_filterMap.mpr ⟨r, h, hk⟩
        · rw [dictFind?_cons, if_neg hkk]
          exact ih hnd.2 h

/-! Lemmas about `mergeRecord`: frame conditions, link monotonicity and
no-op characterization. -/

theorem mergeRecord_time (sh : List String → List String) (ex nm : MatchRec) :
    (mergeRecord sh ex nm).1.time = ex.time := rfl

theorem mergeRecord_date (sh : List String → List String) (ex nm : MatchRec) :
    (mergeRecord sh ex nm).1.date = ex.date := rfl

theorem mergeRecord_source_name (sh : List String → List String) (ex nm : MatchRec) :
    (mergeRecord sh ex nm).1.source_name = ex.source_name := rfl

theorem mergeRecord_source_icon_url (sh : List String → List String) (ex nm : MatchRec) :
    (mergeRecord sh ex nm).1.source_icon_url = ex.source_icon_url := rfl

theorem mergeRecord_match_title (sh : List String → List String) (ex nm : MatchRec) :
    (mergeRecord sh ex nm).1.match_title_from_api = ex.match_title_from_api := rfl

theorem mergeRecord_timestamp (sh : List String → List String) (ex nm : MatchRec) :
    (mergeRecord sh ex nm).1.timestamp_ms = ex.timestamp_ms := rfl

theorem mergeRecord_team1_name (sh : List String → List String) (ex nm : MatchRec) :
    (mergeRecord sh ex nm).1.team1.name = ex.team1.name := by
  rw [mergeRecord]
  dsimp only
  split <;> rfl

theorem mergeRecord_team2_name (sh : List String → List String) (ex nm : MatchRec) :
    (mergeRecord sh ex nm).1.team2.name = ex.team2.name := by
  rw [mergeRecord]
  dsimp only
  split <;> rfl

theorem mergeRecord_team1_logo (sh : List String → List String) (ex nm : MatchRec) :
    (mergeRecord sh ex nm).1.team1.logo_url =
      if ex.team1.logo_url = DEFAULT_LOGO_URL ∧ nm.team1.logo_url ≠ DEFAULT_LOGO_URL
      then nm.team1.logo_url else ex.team1.logo_url := by
  rw [mergeRecord]
  dsimp only
  by_cases hP : ex.team1.logo_url = DEFAULT_LOGO_URL ∧ nm.team1.logo_url ≠ DEFAULT_LOGO_URL
  · simp [hP]
  · simp [hP]

theorem mergeRecord_team2_logo (sh : List String → List String) (ex nm : MatchRec) :
    (mergeRecord sh ex nm).1.team2.logo_url =
      if ex.team2.logo_url = DEFAULT_LOGO_URL ∧ nm.team2.logo_url ≠ DEFAULT_LOGO_URL
      then nm.team2.logo_url else ex.team2.logo_url := by
  rw [mergeRecord]
  dsimp only
  by_cases hP : ex.team2.logo_url = DEFAULT_LOGO_URL ∧ nm.team2.logo_url ≠ DEFAULT_LOGO_URL
  · simp [hP]
  · simp [hP]

theorem mergeRecord_links_eq (sh : List String → List String) (ex nm : MatchRec) :
    (mergeRecord sh ex nm).1.links =
      if ex.links.length < ((ex.links ++ nm.links).dedup).length
      then sh ((ex.links ++ nm.links).dedup) else ex.links := by
  rw [mergeRecord]
  dsimp only
  by_cases hP : ex.links.length < ((ex.links ++ nm.links).dedup).length
  · simp [hP]
  · simp [hP]

theorem mergeRecord_key (sh : List String → List String) (ex nm : MatchRec) :
    matchKey? (mergeRecord sh ex nm).1 = matchKey? ex := by
  rw [matchKey?, matchKey?, mergeRecord_team1_name, mergeRecord_team2_name]
  rfl

theorem list_dedup_length {α : Type} [DecidableEq α] (L : List α) :
    (L.dedup).length = L.toFinset.card := by
  have h : (L.dedup).toFinset = L.toFinset := by
    apply Finset.ext
    intro a
    simp [List.mem_toFinset, List.mem_dedup]
  rw [← h, List.toFinset_card_of_nodup (List.nodup_dedup L)]

theorem mergeRecord_links_super (sh : List String → List String) (ex nm : MatchRec)
    (hsh : ∀ (l : List String) (x : String), x ∈ l → x ∈ sh l) :
    ∀ x ∈ ex.links, x ∈ (mergeRecord sh ex nm).1.links := by
  intro x hx
  rw [mergeRecord_links_eq]
  by_cases hP : ex.links.length < ((ex.links ++ nm.links).dedup).length
  · rw [if_pos hP]
    exact hsh _ x (List.mem_dedup.mpr (List.mem_append_left _ hx))
  · rw [if_neg hP]
    exact hx

theorem mergeRecord_links_iff (sh : List String → List String) (ex nm : MatchRec)
    (hsh : ∀ l : List String, (sh l).Perm l) (hnd : ex.links.Nodup) :
    ∀ x, x ∈ (mergeRecord sh ex nm).1.links ↔ (x ∈ ex.links ∨ x ∈ nm.links) := by
  intro x
  rw [mergeRecord_links_eq]
  by_cases hP : ex.links.length < ((ex.links ++ nm.links).dedup).length
  · rw [if_pos hP, (hsh _).mem_iff, List.mem_dedup, List.mem_append]
  · rw [if_neg hP]
    have hsub : ex.links.toFinset ⊆ ((ex.links ++ nm.links).toFinset) := by
      rw [List.toFinset_append]
      exact Finset.subset_union_left
    have hcard : ((ex.links ++ nm.links).toFinset).card ≤ ex.links.toFinset.card := by
      rw [← list_dedup_length, List.toFinset_card_of_nodup hnd]
      exact Nat.le_of_not_lt hP
    have heq : ex.links.toFinset = (ex.links ++ nm.links).toFinset :=
      Finset.eq_of_subset_of_card_le hsub hcard
    constructor
    · exact Or.inl
    · intro h
      rcases h with h | h
      · exact h
      · have : x ∈ (ex.links ++ nm.links).toFinset :=
          List.mem_toFinset.mpr (List.mem_append_right _ h)
        rw [← heq] at this
        exact List.mem_toFinset.mp this

theorem mergeRecord_noop (sh : List String → List String) (ex nm : MatchRec)
    (h1 : ¬(ex.team1.logo_url = DEFAULT_LOGO_URL ∧ nm.team1.logo_url ≠ DEFAULT_LOGO_URL))
    (h2 : ¬(ex.team2.logo_url = DEFAULT_LOGO_URL ∧ nm.team2.logo_url ≠ DEFAULT_LOGO_URL))
    (h3 : ((ex.links ++ nm.links).dedup).length ≤ ex.links.length) :
    mergeRecord sh ex nm = (ex, false) := by
  rw [mergeRecord]
  dsimp only
  rw [decide_eq_false h1, decide_eq_false h2, decide_eq_false (Nat.not_lt.mpr h3)]
  rfl

theorem mergeRecord_self_noop (sh : List String → List String) (nm : MatchRec) :
    mergeRecord sh nm nm = (nm, false) := by
  apply mergeRecord_noop
  · rintro ⟨ha, hb⟩
    exact hb ha
  · rintro ⟨ha, hb⟩
    exact hb ha
  · rw [list_dedup_length, List.toFinset_append, Finset.union_self]
    exact List.toFinset_card_le _

theorem mergeRecord_second_noop (sh : List String → List String) (ex nm : MatchRec)
    (hsh : ∀ l : List String, (sh l).Perm l) :
    mergeRecord sh (mergeRecord sh ex nm).1 nm = ((mergeRecord sh ex nm).1, false) := by
  apply mergeRecord_noop
  · rw [mergeRecord_team1_logo]
    by_cases hP : ex.team1.logo_url = DEFAULT_LOGO_URL ∧ nm.team1.logo_url ≠ DEFAULT_LOGO_URL
    · rw [if_pos hP]
      rintro ⟨ha, _⟩
      exact hP.2 ha
    · rw [if_neg hP]
      exact hP
  · rw [mergeRecord_team2_logo]
    by_cases hP : ex.team2.logo_url = DEFAULT_LOGO_URL ∧ nm.team2.logo_url ≠ DEFAULT_LOGO_URL
    · rw [if_pos hP]
      rintro ⟨ha, _⟩
      exact hP.2 ha
    · rw [if_neg hP]
      exact hP
  · rw [mergeRecord_links_eq]
    by_cases hP : ex.links.length < ((ex.links ++ nm.links).dedup).length
    · rw [if_pos hP]
      have hfin : (sh ((ex.links ++ nm.links).dedup) ++ nm.links).toFinset
          = (sh ((ex.links ++ nm.links).dedup)).toFinset := by
        apply Finset.ext
        intro a
        simp only [List.toFinset_append, Finset.mem_union, List.mem_toFinset,
          (hsh _).mem_iff, List.mem_dedup, List.mem_append]
        tauto
      rw [list_dedup_length, hfin]
      exact List.toFinset_card_le _
    · rw [if_neg hP]
      exact Nat.le_of_not_lt hP

/-! Lemmas about `mergeLoop`. -/

theorem mergeLoop_nil (sh : List String → List String) (lk : List (MKey × MatchRec))
    (acc : List MatchRec) (nc uc : Nat) :
    mergeLoop sh [] lk acc nc uc = some (acc ++ lk.map (·.2), nc, uc) := rfl

theorem mergeLoop_cons_none (sh : List String → List String) {nm : MatchRec}
    (hk : matchKey? nm = none) (rest : List MatchRec) (lk : List (MKey × MatchRec))
    (acc : List MatchRec) (nc uc : Nat) :
    mergeLoop sh (nm :: rest) lk acc nc uc = none := by
  simp only [mergeLoop, hk]

theorem mergeLoop_cons_claim (sh : List String → List String) {nm : MatchRec} {k : MKey}
    {ex : MatchRec} (rest : List MatchRec) {lk : List (MKey × MatchRec)}
    (acc : List MatchRec) (nc uc : Nat)
    (hk : matchKey? nm = some k) (hfind : dictFind? lk k = some ex) :
    mergeLoop sh (nm :: rest) lk acc nc uc =
      mergeLoop sh rest (dictErase lk k) (acc ++ [(mergeRecord sh ex nm).1]) nc
        (if (mergeRecord sh ex nm).2 then uc + 1 else uc) := by
  simp only [mergeLoop, hk, hfind]

theorem mergeLoop_cons_new (sh : List String → List String) {nm : MatchRec} {k : MKey}
    (rest : List MatchRec) {lk : List (MKey × MatchRec)} (acc : List MatchRec) (nc uc : Nat)
    (hk : matchKey? nm = some k) (hfind : dictFind? lk k = none) :
    mergeLoop sh (nm :: rest) lk acc nc uc =
      mergeLoop sh rest lk (acc ++ [nm]) (nc + 1) uc := by
  simp only [mergeLoop, hk, hfind]

theorem mergeLoop_acc (sh : List String → List String) :
    ∀ (p : List MatchRec) (lk : List (MKey × MatchRec)) (acc : List MatchRec) (nc uc : Nat),
      mergeLoop sh p lk acc nc uc =
        (mergeLoop sh p lk [] 0 0).map (fun o => (acc ++ o.1, nc + o.2.1, uc + o.2.2))
  | [], lk, acc, nc, uc => by
    rw [mergeLoop_nil, mergeLoop_nil, Option.map_some']
    simp
  | nm :: rest, lk, acc, nc, uc => by
    rcases hk : matchKey? nm with _ | k
    · rw [mergeLoop_cons_none sh hk, mergeLoop_cons_none sh hk]
      rfl
    · rcases hfind : dictFind? lk k with _ | ex
      · rw [mergeLoop_cons_new sh rest acc nc uc hk hfind,
          mergeLoop_cons_new sh rest [] 0 0 hk hfind,
          mergeLoop_acc sh rest lk (acc ++ [nm]) (nc + 1) uc,
          mergeLoop_acc sh rest lk ([] ++ [nm]) (0 + 1) 0]
        rcases mergeLoop sh rest lk [] 0 0 with _ | o
        · rfl
        · simp [List.append_assoc, Nat.add_assoc]
      · rw [mergeLoop_cons_claim sh rest acc nc uc hk hfind,
          mergeLoop_cons_claim sh rest [] 0 0 hk hfind,
          mergeLoop_acc sh rest (dictErase lk k) (acc ++ [(mergeRecord sh ex nm).1]) nc _,
          mergeLoop_acc sh rest (dictErase lk k) ([] ++ [(mergeRecord sh ex nm).1]) 0 _]
        rcases mergeLoop sh rest (dictErase lk k) [] 0 0 with _ | o
        · rfl
        · rcases hu : (mergeRecord sh ex nm).2 with _ | _
          · simp [List.append_assoc, Nat.add_assoc]
          · simp only [Option.map_some']
            refine congrArg some ?_
            refine Prod.ext ?_ (Prod.ext ?_ ?_)
            · simp [List.append_assoc]
            · simp [Nat.add_assoc]
            · simp
              omega

theorem mergeLoop_success (sh : List String → List String) :
    ∀ (p : List MatchRec) (lk : List (MKey × MatchRec)) (acc : List MatchRec) (nc uc : Nat),
      (∀ nm ∈ p, (matchKey? nm).isSome) →
      ∃ o, mergeLoop sh p lk acc nc uc = some o
  | [], lk, acc, nc, uc, _ => ⟨_, mergeLoop_nil sh lk acc nc uc⟩
  | nm :: rest, lk, acc, nc, uc, hsome => by
    rcases hk : matchKey? nm with _ | k
    · have := hsome nm (List.mem_cons_self _ _)
      rw [hk] at this
      simp at this
    · have hrest : ∀ m ∈ rest, (matchKey? m).isSome :=
        fun m hm => hsome m (List.mem_cons_of_mem _ hm)
      rcases hfind : dictFind? lk k with _ | ex
      · rw [mergeLoop_cons_new sh rest acc nc uc hk hfind]
        exact mergeLoop_success sh rest lk (acc ++ [nm]) (nc + 1) uc hrest
      · rw [mergeLoop_cons_claim sh rest acc nc uc hk hfind]
        exact mergeLoop_success sh rest (dictErase lk k) _ nc _ hrest

theorem mergeLoop_acc_mem (sh : List String → List String) :
    ∀ (p : List MatchRec) (lk : List (MKey × MatchRec)) (acc : List MatchRec) (nc uc : Nat)
      (out : List MatchRec) (a b : Nat),
      mergeLoop sh p lk acc nc uc = some (out, a, b) →
      ∀ r ∈ acc, r ∈ out
  | [], lk, acc, nc, uc, out, a, b, h => by
    rw [mergeLoop_nil] at h
    rcases h with ⟨h1⟩
    intro r hr
    exact List.mem_append_left _ hr
  | nm :: rest, lk, acc, nc, uc, out, a, b, h => by
    intro r hr
    rcases hk : matchKey? nm with _ | k
    · rw [mergeLoop_cons_none sh hk] at h
      cases h
    · rcases hfind : dictFind? lk k with _ | ex
      · rw [mergeLoop_cons_new sh rest acc nc uc hk hfind] at h
        exact mergeLoop_acc_mem sh rest lk (acc ++ [nm]) (nc + 1) uc out a b h r
          (List.mem_append_left _ hr)
      · rw [mergeLoop_cons_claim sh rest acc nc uc hk hfind] at h
        exact mergeLoop_acc_mem sh rest (dictErase lk k) _ nc _ out a b h r
          (List.mem_append_left _ hr)

theorem mergeLoop_key_survives (sh : List String → List String) :
    ∀ (p : List MatchRec) (lk : List (MKey × MatchRec)) (acc : List MatchRec) (nc uc : Nat)
      (out : List MatchRec) (a b : Nat) (k : MKey),
      (∀ q ∈ lk, matchKey? q.2 = some q.1) →
      k ∈ lk.map Prod.fst →
      mergeLoop sh p lk acc nc uc = some (out, a, b) →
      ∃ r ∈ out, matchKey? r = some k
  | [], lk, acc, nc, uc, out, a, b, k, hinv, hk, h => by
    rw [mergeLoop_nil] at h
    rcases h with ⟨h1⟩
    rcases List.mem_map.mp hk with ⟨q, hq, hqk⟩
    exact ⟨q.2, List.mem_append_right _ (List.mem_map.mpr ⟨q, hq, rfl⟩), hqk ▸ hinv q hq⟩
  | nm :: rest, lk, acc, nc, uc, out, a, b, k, hinv, hk, h => by
    rcases hkey : matchKey? nm with _ | k0
    · rw [mergeLoop_cons_none sh hkey] at h
      cases h
    · rcases hfind : dictFind? lk k0 with _ | ex
      · rw [mergeLoop_cons_new sh rest acc nc uc hkey hfind] at h
        exact mergeLoop_key_survives sh rest lk (acc ++ [nm]) (nc + 1) uc out a b k hinv hk h
      · rw [mergeLoop_cons_claim sh rest acc nc uc hkey hfind] at h
        by_cases hkk : k = k0
        · subst hkk
          have hm : (mergeRecord sh ex nm).1 ∈ out :=
            mergeLoop_acc_mem sh rest (dictErase lk k) _ nc _ out a b h _
              (List.mem_append_right _ (List.mem_singleton_self _))
          refine ⟨(mergeRecord sh ex nm).1, hm, ?_⟩
          rw [mergeRecord_key]
          exact hinv (k, ex) (dictFind?_mem hfind)
        · have hinv' : ∀ q ∈ dictErase lk k0, matchKey? q.2 = some q.1 :=
            fun q hq => hinv q (mem_dictErase.mp hq).1
          have hk' : k ∈ (dictErase lk k0).map Prod.fst := by
            rcases List.mem_map.mp hk with ⟨q, hq, hqk⟩
            exact List.mem_map.mpr ⟨q, mem_dictErase.mpr ⟨hq, by rw [hqk]; exact hkk⟩, hqk⟩
          exact mergeLoop_key_survives sh rest (dictErase lk k0) _ nc _ out a b k hinv' hk' h

theorem mergeLoop_all_keyed (sh : List String → List String) :
    ∀ (p : List MatchRec) (lk : List (MKey × MatchRec)) (acc : List MatchRec) (nc uc : Nat)
      (out : List MatchRec) (a b : Nat),
      (∀ r ∈ acc, (matchKey? r).isSome) →
      (∀ q ∈ lk, matchKey? q.2 = some q.1) →
      mergeLoop sh p lk acc nc uc = some (out, a, b) →
      ∀ r ∈ out, (matchKey? r).isSome
  | [], lk, acc, nc, uc, out, a, b, hacc, hinv, h => by
    rw [mergeLoop_nil] at h
    rcases h with ⟨h1⟩
    intro r hr
    rcases List.mem_append.mp hr with h' | h'
    · exact hacc r h'
    · rcases List.mem_map.mp h' with ⟨q, hq, hqr⟩
      rw [← hqr, hinv q hq]
      rfl
  | nm :: rest, lk, acc, nc, uc, out, a, b, hacc, hinv, h => by
    rcases hkey : matchKey? nm with _ | k0
    · rw [mergeLoop_cons_none sh hkey] at h
      cases h
    · rcases hfind : dictFind? lk k0 with _ | ex
      · rw [mergeLoop_cons_new sh rest acc nc uc hkey hfind] at h
        refine mergeLoop_all_keyed sh rest lk (acc ++ [nm]) (nc + 1) uc out a b ?_ hinv h
        intro r hr
        rcases List.mem_append.mp hr with h' | h'
        · exact hacc r h'
        · rw [List.mem_singleton.mp h', hkey]
          rfl
      · rw [mergeLoop_cons_claim sh rest acc nc uc hkey hfind] at h
        refine mergeLoop_all_keyed sh rest (dictErase lk k0) _ nc _ out a b ?_
          (fun q hq => hinv q (mem_dictErase.mp hq).1) h
        intro r hr
        rcases List.mem_append.mp hr with h' | h'
        · exact hacc r h'
        · rw [List.mem_singleton.mp h', mergeRecord_key]
          rw [hinv (k0, ex) (dictFind?_mem hfind)]
          rfl

theorem filterMap_key_cons_some {nm : MatchRec} {k0 : MKey}
    (h : matchKey? nm = some k0) (rest : List MatchRec) :
    (nm :: rest).filterMap matchKey? = k0 :: rest.filterMap matchKey? := by
  simp [List.filterMap_cons, h]

theorem filterMap_key_snoc_some {m : MatchRec} {k0 : MKey}
    (h : matchKey? m = some k0) (acc : List MatchRec) :
    (acc ++ [m]).filterMap matchKey? = acc.filterMap matchKey? ++ [k0] := by
  simp [List.filterMap_append, List.filterMap_cons, h]

theorem filterMap_values_eq_keys :
    ∀ (lk : List (MKey × MatchRec)),
      (∀ q ∈ lk, matchKey? q.2 = some q.1) →
      (lk.map (·.2)).filterMap matchKey? = lk.map Prod.fst
  | [], _ => rfl
  | q :: lk, hinv => by
    rw [List.map_cons, List.map_cons,
      filterMap_key_cons_some (hinv q (List.mem_cons_self _ _)),
      filterMap_values_eq_keys lk (fun p hp => hinv p (List.mem_cons_of_mem _ hp))]

theorem mergeLoop_entry_links (sh : List String → List String)
    (hsh : ∀ (l : List String) (x : String), x ∈ l → x ∈ sh l) :
    ∀ (p : List MatchRec) (lk : List (MKey × MatchRec)) (acc : List MatchRec) (nc uc : Nat)
      (out : List MatchRec) (a b : Nat),
      (∀ q ∈ lk, matchKey? q.2 = some q.1) →
      (lk.map Prod.fst).Nodup →
      mergeLoop sh p lk acc nc uc = some (out, a, b) →
      ∀ q ∈ lk, ∃ r ∈ out, matchKey? r = some q.1 ∧ ∀ x ∈ q.2.links, x ∈ r.links
  | [], lk, acc, nc, uc, out, a, b, hinv, _, h => by
    rw [mergeLoop_nil] at h
    rcases h with ⟨h1⟩
    intro q hq
    exact ⟨q.2, List.mem_append_right _ (List.mem_map.mpr ⟨q, hq, rfl⟩), hinv q hq,
      fun x hx => hx⟩
  | nm :: rest, lk, acc, nc, uc, out, a, b, hinv, hnd, h => by
    intro q hq
    rcases hkey : matchKey? nm with _ | k0
    · rw [mergeLoop_cons_none sh hkey] at h
      cases h
    · rcases hfind : dictFind? lk k0 with _ | ex
      · exact mergeLoop_entry_links sh hsh rest lk (acc ++ [nm]) (nc + 1) uc out a b hinv hnd
          (by rw [mergeLoop_cons_new sh rest acc nc uc hkey hfind] at h; exact h) q hq
      · rw [mergeLoop_cons_claim sh rest acc nc uc hkey hfind] at h
        by_cases hqk : q.1 = k0
        · have hq2 : dictFind? lk q.1 = some q.2 := by
            rcases q with ⟨qk, qv⟩
            exact dictFind?_of_mem_nodup hnd hq
          rw [hqk, hfind] at hq2
          cases hq2
          refine ⟨(mergeRecord sh q.2 nm).1, ?_, ?_, ?_⟩
          · exact mergeLoop_acc_mem sh rest (dictErase lk k0) _ nc _ out a b h _
              (List.mem_append_right _ (List.mem_singleton_self _))
          · rw [mergeRecord_key, hinv q hq]
          · exact mergeRecord_links_super sh q.2 nm hsh
        · exact mergeLoop_entry_links sh hsh rest (dictErase lk k0) _ nc _ out a b
            (fun p hp => hinv p (mem_dictErase.mp hp).1)
            (keys_dictErase_nodup k0 hnd) h q (mem_dictErase.mpr ⟨hq, hqk⟩)

theorem mergeLoop_keys_from (sh : List String → List String) :
    ∀ (p : List MatchRec) (lk : List (MKey × MatchRec)) (acc : List MatchRec) (nc uc : Nat)
      (out : List MatchRec) (a b : Nat),
      (∀ q ∈ lk, matchKey? q.2 = some q.1) →
      mergeLoop sh p lk acc nc uc = some (out, a, b) →
      ∀ k, (∃ r ∈ out, matchKey? r = some k) →
        (∃ r ∈ acc, matchKey? r = some k) ∨ k ∈ lk.map Prod.fst ∨
          (∃ nm ∈ p, matchKey? nm = some k)
  | [], lk, acc, nc, uc, out, a, b, hinv, h, k, hr => by
    rw [mergeLoop_nil] at h
    rcases h with ⟨h1⟩
    rcases hr with ⟨r, hrmem, hrk⟩
    rcases List.mem_append.mp hrmem with h' | h'
    · exact Or.inl ⟨r, h', hrk⟩
    · rcases List.mem_map.mp h' with ⟨q, hq, hqr⟩
      refine Or.inr (Or.inl ?_)
      rw [← hqr] at hrk
      rw [hinv q hq] at hrk
      rcases hrk with ⟨h2⟩
      exact List.mem_map.mpr ⟨q, hq, rfl⟩
  | nm :: rest, lk, acc, nc, uc, out, a, b, hinv, h, k, hr => by
    rcases hkey : matchKey? nm with _ | k0
    · rw [mergeLoop_cons_none sh hkey] at h
      cases h
    · rcases hfind : dictFind? lk k0 with _ | ex
      · rw [mergeLoop_cons_new sh rest acc nc uc hkey hfind] at h
        rcases mergeLoop_keys_from sh rest lk (acc ++ [nm]) (nc + 1) uc out a b hinv h k hr
          with ⟨r, hrm, hrk⟩ | h' | ⟨m, hm, hmk⟩
        · rcases List.mem_append.mp hrm with h'' | h''
          · exact Or.inl ⟨r, h'', hrk⟩
          · rw [List.mem_singleton.mp h''] at hrk
            rw [hkey] at hrk
            rcases hrk with ⟨h2⟩
            exact Or.inr (Or.inr ⟨nm, List.mem_cons_self _ _, hkey⟩)
        · exact Or.inr (Or.inl h')
        · exact Or.inr (Or.inr ⟨m, List.mem_cons_of_mem _ hm, hmk⟩)
      · rw [mergeLoop_cons_claim sh rest acc nc uc hkey hfind] at h
        rcases mergeLoop_keys_from sh rest (dictErase lk k0) _ nc _ out a b
          (fun p hp => hinv p (mem_dictErase.mp hp).1) h k hr
          with ⟨r, hrm, hrk⟩ | h' | ⟨m, hm, hmk⟩
        · rcases List.mem_append.mp hrm with h'' | h''
          · exact Or.inl ⟨r, h'', hrk⟩
          · rw [List.mem_singleton.mp h'', mergeRecord_key,
              hinv (k0, ex) (dictFind?_mem hfind)] at hrk
            rcases hrk with ⟨h2⟩
            exact Or.inr (Or.inl (mem_keys_of_dictFind? hfind))
        · rcases List.mem_map.mp h' with ⟨q, hq, hqk⟩
          exact Or.inr (Or.inl (List.mem_map.mpr ⟨q, (mem_dictErase.mp hq).1, hqk⟩))
        · exact Or.inr (Or.inr ⟨m, List.mem_cons_of_mem _ hm, hmk⟩)

theorem mergeLoop_keys_nodup (sh : List String → List String) :
    ∀ (p : List MatchRec) (lk : List (MKey × MatchRec)) (acc : List MatchRec) (nc uc : Nat)
      (out : List MatchRec) (a b : Nat),
      (∀ q ∈ lk, matchKey? q.2 = some q.1) →
      (lk.map Prod.fst).Nodup →
      (p.filterMap matchKey?).Nodup →
      (acc.filterMap matchKey?).Nodup →
      (∀ k ∈ acc.filterMap matchKey?, k ∉ lk.map Prod.fst) →
      (∀ k ∈ acc.filterMap matchKey?, k ∉ p.filterMap matchKey?) →
      mergeLoop sh p lk acc nc uc = some (out, a, b) →
      (out.filterMap matchKey?).Nodup
  | [], lk, acc, nc, uc, out, a, b, hinv, hndlk, _, hnda, hdisj1, _, h => by
    rw [mergeLoop_nil] at h
    rcases h with ⟨h1⟩
    rw [List.filterMap_append, filterMap_values_eq_keys lk hinv]
    exact List.nodup_append.mpr ⟨hnda, hndlk, hdisj1⟩
  | nm :: rest, lk, acc, nc, uc, out, a, b, hinv, hndlk, hndp, hnda, hdisj1, hdisj2, h => by
    rcases hkey : matchKey? nm with _ | k0
    · rw [mergeLoop_cons_none sh hkey] at h
      cases h
    · rw [filterMap_key_cons_some hkey] at hndp hdisj2
      rw [List.nodup_cons] at hndp
      rcases hfind : dictFind? lk k0 with _ | ex
      · rw [mergeLoop_cons_new sh rest acc nc uc hkey hfind] at h
        have hk0lk : k0 ∉ lk.map Prod.fst := by
          intro hc
          rcases dictFind?_isSome_of_mem_keys hc with ⟨v, hv⟩
          rw [hfind] at hv
          cases hv
        have hk0acc : k0 ∉ acc.filterMap matchKey? := by
          intro hc
          exact hdisj2 k0 hc (List.mem_cons_self _ _)
        refine mergeLoop_keys_nodup sh rest lk (acc ++ [nm]) (nc + 1) uc out a b hinv hndlk
          hndp.2 ?_ ?_ ?_ h
        · rw [filterMap_key_snoc_some hkey]
          exact List.nodup_append.mpr ⟨hnda, List.nodup_singleton _,
            fun x hx hx' => hk0acc ((List.mem_singleton.mp hx') ▸ hx)⟩
        · intro k hk
          rw [filterMap_key_snoc_some hkey, List.mem_append] at hk
          rcases hk with hk | hk
          · exact hdisj1 k hk
          · rw [List.mem_singleton.mp hk]
            exact hk0lk
        · intro k hk
          rw [filterMap_key_snoc_some hkey, List.mem_append] at hk
          rcases hk with hk | hk
          · exact fun hc => hdisj2 k hk (List.mem_cons_of_mem _ hc)
          · rw [List.mem_singleton.mp hk]
            exact hndp.1
      · rw [mergeLoop_cons_claim sh rest acc nc uc hkey hfind] at h
        have hk0acc : k0 ∉ acc.filterMap matchKey? := by
          intro hc
          exact hdisj2 k0 hc (List.mem_cons_self _ _)
        have hmk : matchKey? (mergeRecord sh ex nm).1 = some k0 := by
          rw [mergeRecord_key]
          exact hinv (k0, ex) (dictFind?_mem hfind)
        refine mergeLoop_keys_nodup sh rest (dictErase lk k0) _ nc _ out a b
          (fun q hq => hinv q (mem_dictErase.mp hq).1)
          (keys_dictErase_nodup k0 hndlk) hndp.2 ?_ ?_ ?_ h
        · rw [filterMap_key_snoc_some hmk]
          exact List.nodup_append.mpr ⟨hnda, List.nodup_singleton _,
            fun x hx hx' => hk0acc ((List.mem_singleton.mp hx') ▸ hx)⟩
        · intro k hk
          rw [filterMap_key_snoc_some hmk, List.mem_append] at hk
          rcases hk with hk | hk
          · intro hc
            rcases List.mem_map.mp hc with ⟨q, hq, hqk⟩
            exact hdisj1 k hk
              (List.mem_map.mpr ⟨q, (mem_dictErase.mp hq).1, hqk⟩)
          · rw [List.mem_singleton.mp hk]
            exact keys_dictErase_not_mem lk k0
        · intro k hk
          rw [filterMap_key_snoc_some hmk, List.mem_append] at hk
          rcases hk with hk | hk
          · exact fun hc => hdisj2 k hk (List.mem_cons_of_mem _ hc)
          · rw [List.mem_singleton.mp hk]
            exact hndp.1

theorem mergeLoop_claimed_mem (sh : List String → List String) :
    ∀ (p : List MatchRec) (lk : List (MKey × MatchRec)) (acc : List MatchRec) (nc uc : Nat)
      (out : List MatchRec) (a b : Nat) (k : MKey) (nm ex : MatchRec),
      (p.filterMap matchKey?).Nodup →
      nm ∈ p → matchKey? nm = some k →
      dictFind? lk k = some ex →
      mergeLoop sh p lk acc nc uc = some (out, a, b) →
      (mergeRecord sh ex nm).1 ∈ out
  | [], _, _, _, _, _, _, _, _, _, _, _, hnm, _, _, _ => by simp at hnm
  | nm0 :: rest, lk, acc, nc, uc, out, a, b, k, nm, ex, hndp, hnm, hkey, hfind, h => by
    rcases hkey0 : matchKey? nm0 with _ | k0
    · rw [mergeLoop_cons_none sh hkey0] at h
      cases h
    · rw [filterMap_key_cons_some hkey0] at hndp
      rw [List.nodup_cons] at hndp
      rcases List.mem_cons.mp hnm with heq | hmem
      · subst heq
        rw [hkey0] at hkey
        have hkk := Option.some.inj hkey
        rw [mergeLoop_cons_claim sh rest acc nc uc hkey0 (hkk ▸ hfind)] at h
        exact mergeLoop_acc_mem sh rest (dictErase lk k0) _ nc _ out a b h _
          (List.mem_append_right _ (List.mem_singleton_self _))
      · have hkne : k ≠ k0 := by
          intro hc
          apply hndp.1
          rw [← hc]
          exact List.mem_filterMap.mpr ⟨nm, hmem, hkey⟩
        rcases hfind0 : dictFind? lk k0 with _ | ex0
        · rw [mergeLoop_cons_new sh rest acc nc uc hkey0 hfind0] at h
          exact mergeLoop_claimed_mem sh rest lk _ (nc + 1) uc out a b k nm ex hndp.2
            hmem hkey hfind h
        · rw [mergeLoop_cons_claim sh rest acc nc uc hkey0 hfind0] at h
          have hfind' : dictFind? (dictErase lk k0) k = some ex := by
            rw [dictFind?_dictErase_ne hkne]
            exact hfind
          exact mergeLoop_claimed_mem sh rest (dictErase lk k0) _ nc _ out a b k nm ex
            hndp.2 hmem hkey hfind' h

theorem keyedList_values :
    ∀ (lk : List (MKey × MatchRec)),
      (∀ q ∈ lk, matchKey? q.2 = some q.1) →
      keyedList (lk.map (·.2)) = lk
  | [], _ => rfl
  | q :: lk, hinv => by
    rcases q with ⟨k, v⟩
    rw [List.map_cons, keyedList_cons_some (hinv (k, v) (List.mem_cons_self _ _)),
      keyedList_values lk (fun p hp => hinv p (List.mem_cons_of_mem _ hp))]

theorem mergeLoop_idem (sh : List String → List String)
    (hsh : ∀ l : List String, (sh l).Perm l) :
    ∀ (p : List MatchRec) (lk : List (MKey × MatchRec)) (out : List MatchRec) (a b : Nat),
      (∀ q ∈ lk, matchKey? q.2 = some q.1) →
      (lk.map Prod.fst).Nodup →
      (p.filterMap matchKey?).Nodup →
      mergeLoop sh p lk [] 0 0 = some (out, a, b) →
      mergeLoop sh p (buildLookup out) [] 0 0 = some (out, 0, 0)
  | [], lk, out, a, b, hinv, hndlk, _, h => by
    rw [mergeLoop_nil] at h
    rcases h with ⟨rfl, rfl, rfl⟩
    rw [List.nil_append]
    have hnd : ((lk.map (·.2)).filterMap matchKey?).Nodup := by
      rw [filterMap_values_eq_keys lk hinv]
      exact hndlk
    rw [buildLookup_eq_keyedList hnd, keyedList_values lk hinv, mergeLoop_nil,
      List.nil_append]
  | nm :: rest, lk, out, a, b, hinv, hndlk, hndp, h => by
    rcases hkey : matchKey? nm with _ | k
    · rw [mergeLoop_cons_none sh hkey] at h
      cases h
    · rw [filterMap_key_cons_some hkey] at hndp
      rw [List.nodup_cons] at hndp
      rcases hfind : dictFind? lk k with _ | ex
      · -- the record is new in the first run
        rw [mergeLoop_cons_new sh rest [] 0 0 hkey hfind,
          mergeLoop_acc sh rest lk ([] ++ [nm]) (0 + 1) 0] at h
        rcases hbase : mergeLoop sh rest lk [] 0 0 with _ | o
        · rw [hbase] at h
          cases h
        · rcases o with ⟨out', a', b'⟩
          rw [hbase, Option.map_some'] at h
          rcases h with ⟨rfl, rfl, rfl⟩
          have hIH := mergeLoop_idem sh hsh rest lk out' a' b' hinv hndlk hndp.2 hbase
          have hnd' : (out'.filterMap matchKey?).Nodup :=
            mergeLoop_keys_nodup sh rest lk [] 0 0 out' a' b' hinv hndlk hndp.2
              (by simp) (by simp) (by simp) hbase
          have hknot : k ∉ out'.filterMap matchKey? := by
            intro hc
            rcases List.mem_filterMap.mp hc with ⟨r, hr, hrk⟩
            rcases mergeLoop_keys_from sh rest lk [] 0 0 out' a' b' hinv hbase k
              ⟨r, hr, hrk⟩ with ⟨r', hr', _⟩ | h' | ⟨m', hm', hmk'⟩
            · simp at hr'
            · rcases dictFind?_isSome_of_mem_keys h' with ⟨v, hv⟩
              rw [hfind] at hv
              cases hv
            · exact hndp.1 (List.mem_filterMap.mpr ⟨m', hm', hmk'⟩)
          have hbl : buildLookup (([] ++ [nm]) ++ out') = (k, nm) :: keyedList out' := by
            rw [List.nil_append, List.singleton_append, buildLookup_eq_keyedList ?_,
              keyedList_cons_some hkey]
            rw [filterMap_key_cons_some hkey]
            exact List.nodup_cons.mpr ⟨hknot, hnd'⟩
          rw [hbl]
          have hfindnm : dictFind? ((k, nm) :: keyedList out') k = some nm := by
            rw [dictFind?_cons, if_pos rfl]
          rw [mergeLoop_cons_claim sh rest [] 0 0 hkey hfindnm, mergeRecord_self_noop]
          have herase : dictErase ((k, nm) :: keyedList out') k = keyedList out' := by
            rw [dictErase_cons, if_pos rfl]
            apply dictErase_eq_self
            intro q hq hc
            apply hknot
            rw [← hc, ← keyedList_keys]
            exact List.mem_map.mpr ⟨q, hq, rfl⟩
          rw [herase]
          have hkl : keyedList out' = buildLookup out' := (buildLookup_eq_keyedList hnd').symm
          rw [hkl, mergeLoop_acc sh rest (buildLookup out') _ _ _, hIH, Option.map_some']
          simp
      · -- the record matches an existing slot in the first run
        rw [mergeLoop_cons_claim sh rest [] 0 0 hkey hfind,
          mergeLoop_acc sh rest (dictErase lk k) ([] ++ [(mergeRecord sh ex nm).1]) 0 _] at h
        rcases hbase : mergeLoop sh rest (dictErase lk k) [] 0 0 with _ | o
        · rw [hbase] at h
          cases h
        · rcases o with ⟨out', a', b'⟩
          rw [hbase, Option.map_some'] at h
          rcases h with ⟨rfl, rfl, rfl⟩
          have hinv' : ∀ q ∈ dictErase lk k, matchKey? q.2 = some q.1 :=
            fun q hq => hinv q (mem_dictErase.mp hq).1
          have hndlk' : ((dictErase lk k).map Prod.fst).Nodup :=
            keys_dictErase_nodup k hndlk
          have hIH := mergeLoop_idem sh hsh rest (dictErase lk k) out' a' b' hinv' hndlk'
            hndp.2 hbase
          have hnd' : (out'.filterMap matchKey?).Nodup :=
            mergeLoop_keys_nodup sh rest (dictErase lk k) [] 0 0 out' a' b' hinv' hndlk'
              hndp.2 (by simp) (by simp) (by simp) hbase
          have hknot : k ∉ out'.filterMap matchKey? := by
            intro hc
            rcases List.mem_filterMap.mp hc with ⟨r, hr, hrk⟩
            rcases mergeLoop_keys_from sh rest (dictErase lk k) [] 0 0 out' a' b' hinv'
              hbase k ⟨r, hr, hrk⟩ with ⟨r', hr', _⟩ | h' | ⟨m', hm', hmk'⟩
            · simp at hr'
            · exact keys_dictErase_not_mem lk k h'
            · exact hndp.1 (List.mem_filterMap.mpr ⟨m', hm', hmk'⟩)
          have hmk : matchKey? (mergeRecord sh ex nm).1 = some k := by
            rw [mergeRecord_key]
            exact hinv (k, ex) (dictFind?_mem hfind)
          have hbl : buildLookup (([] ++ [(mergeRecord sh ex nm).1]) ++ out')
              = (k, (mergeRecord sh ex nm).1) :: keyedList out' := by
            rw [List.nil_append, List.singleton_append, buildLookup_eq_keyedList ?_,
              keyedList_cons_some hmk]
            rw [filterMap_key_cons_some hmk]
            exact List.nodup_cons.mpr ⟨hknot, hnd'⟩
          rw [hbl]
          have hfindm : dictFind? ((k, (mergeRecord sh ex nm).1) :: keyedList out') k
              = some (mergeRecord sh ex nm).1 := by
            rw [dictFind?_cons, if_pos rfl]
          rw [mergeLoop_cons_claim sh rest [] 0 0 hkey hfindm,
            mergeRecord_second_noop sh ex nm hsh]
          have herase : dictErase ((k, (mergeRecord sh ex nm).1) :: keyedList out') k
              = keyedList out' := by
            rw [dictErase_cons, if_pos rfl]
            apply dictErase_eq_self
            intro q hq hc
            apply hknot
            rw [← hc, ← keyedList_keys]
            exact List.mem_map.mpr ⟨q, hq, rfl⟩
          rw [herase]
          have hkl : keyedList out' = buildLookup out' := (buildLookup_eq_keyedList hnd').symm
          rw [hkl, mergeLoop_acc sh rest (buildLookup out') _ _ _, hIH, Option.map_some']
          simp

/-! Guard lemmas: the sentinel and empty date/time strings never parse. -/

theorem parse_empty_date (t : String) : parseDateTimeUs "" t = none := rfl

theorem parse_nf_date (t : String) : parseDateTimeUs "Not Found" t = none := rfl

theorem parse_empty_time (d : String) : parseDateTimeUs d "" = none := by
  rw [parseDateTimeUs.eq_def]
  rcases d.toList.splitOn '-' with _ | ⟨a, _ | ⟨b, _ | ⟨c, _ | ⟨e, l⟩⟩⟩⟩ <;> rfl

theorem parse_nf_time (d : String) : parseDateTimeUs d "Not Found" = none := by
  rw [parseDateTimeUs.eq_def]
  rcases d.toList.splitOn '-' with _ | ⟨a, _ | ⟨b, _ | ⟨c, _ | ⟨e, l⟩⟩⟩⟩ <;> rfl

/-- Claim C3: the claim states that a failing persistence write leaves the
previously persisted file intact.  The code opens the output file with
mode `w`, which truncates it before `json.dump` runs, so a write that
fails after `n` characters leaves a truncated file, not the previous one:
evaluating the model at a failing write shows the file ends up empty
instead of holding the previous content `"[1]"`. -/
theorem c3_save_truncates_on_failure :
    save_data (some "[1]") "[2]" (WriteOutcome.failAfter 0) = some ""
    ∧ ("" : String) ≠ "[1]" := by
  exact ⟨rfl, by decide⟩

/-- Claim C4: a record with a resolvable kickoff instant is removed by the
Retention Cleaner exactly when that instant is strictly older than now
minus the window — for `is_ancient_history` and the `update_archives`
removal decision (12-hour window, exact integer arithmetic), and for
`cleanup_old_matches` membership (cutoff = now minus the window). -/
theorem c4_retention_strict_window :
    (∀ (t now_ms : Int), t ≠ 0 →
      (is_ancient_history (some t) now_ms = true ↔ t < now_ms - ANCIENT_SCROLL_LIMIT * 1000))
    ∧ (∀ (r : MatchRec) (now_ms now_us t : Int), r.timestamp_ms = some t → t ≠ 0 →
      (record_is_old r now_ms now_us = true ↔ t < now_ms - ANCIENT_SCROLL_LIMIT * 1000))
    ∧ (∀ (ms : List MatchRec) (m : MatchRec) (cutoff_us t : Int),
        parseDateTimeUs m.date m.time = some t → m ∈ ms →
        (m ∈ cleanup_old_matches ms cutoff_us ↔ ¬ t < cutoff_us)) := by
  have hanc : ∀ (t now_ms : Int), t ≠ 0 →
      (is_ancient_history (some t) now_ms = true ↔ t < now_ms - ANCIENT_SCROLL_LIMIT * 1000) := by
    intro t now_ms ht
    rw [is_ancient_history, if_neg ht, decide_eq_true_eq]
    omega
  refine ⟨hanc, ?_, ?_⟩
  · intro r now_ms now_us t hts ht
    simp only [record_is_old, hts]
    rw [if_pos ht]
    exact hanc t now_ms ht
  · intro ms m cutoff_us t hp hm
    have hguard : ¬(m.date = "" ∨ m.time = "" ∨ m.date = "Not Found" ∨ m.time = "Not Found") := by
      rintro (hg | hg | hg | hg)
      · rw [hg, parse_empty_date] at hp
        cases hp
      · rw [hg, parse_empty_time] at hp
        cases hp
      · rw [hg, parse_nf_date] at hp
        cases hp
      · rw [hg, parse_nf_time] at hp
        cases hp
    rw [cleanup_old_matches, List.mem_filter]
    rw [keepMatch, if_neg hguard, hp]
    constructor
    · intro h'
      exact of_decide_eq_true h'.2
    · intro h'
      exact ⟨hm, decide_eq_true h'⟩

/-- Claim C4 witness: with the 12-hour window and `now` at 100 hours
(in epoch milliseconds), a kickoff 13 hours in the past is removed and a
kickoff 11 hours in the past is kept. -/
theorem c4_retention_strict_window_witness :
    is_ancient_history (some 313200000) 360000000 = true
    ∧ is_ancient_history (some 320400000) 360000000 = false := by
  constructor
  · exact (c4_retention_strict_window.1 313200000 360000000 (by decide)).mpr (by decide)
  · cases hb : is_ancient_history (some 320400000) 360000000
    · rfl
    · exact absurd ((c4_retention_strict_window.1 320400000 360000000 (by decide)).mp hb)
        (by decide)

/-- Claim C7: a record whose date or time is empty, the sentinel
`"Not Found"`, or unparseable is retained unconditionally by
`cleanup_old_matches`, and under `update_archives` a record without a
truthy `_timestamp` and without a parseable date/time is never marked
old; both deciders are total functions, so no exception escapes. -/
theorem c7_unparseable_retained :
    (∀ (ms : List MatchRec) (cutoff_us : Int) (m : MatchRec), m ∈ ms →
      (m.date = "" ∨ m.time = "" ∨ m.date = "Not Found" ∨ m.time = "Not Found" ∨
        parseDateTimeUs m.date m.time = none) →
      m ∈ cleanup_old_matches ms cutoff_us)
    ∧ (∀ (r : MatchRec) (now_ms now_us : Int),
        (r.timestamp_ms = none ∨ r.timestamp_ms = some 0) →
        (r.date = "" ∨ r.time = "" ∨ parseDateTimeUs r.date r.time = none) →
        record_is_old r now_ms now_us = false) := by
  constructor
  · intro ms cutoff_us m hm hbad
    rw [cleanup_old_matches, List.mem_filter]
    refine ⟨hm, ?_⟩
    rw [keepMatch]
    by_cases hg : m.date = "" ∨ m.time = "" ∨ m.date = "Not Found" ∨ m.time = "Not Found"
    · rw [if_pos hg]
    · rw [if_neg hg]
      rcases hbad with h | h | h | h | h
      · exact absurd (Or.inl h) hg
      · exact absurd (Or.inr (Or.inl h)) hg
      · exact absurd (Or.inr (Or.inr (Or.inl h))) hg
      · exact absurd (Or.inr (Or.inr (Or.inr h))) hg
      · rw [h]
  · intro r now_ms now_us hts hbad
    have hleg : legacy_is_old r now_us = false := by
      rw [legacy_is_old]
      by_cases hc : r.date ≠ "" ∧ r.time ≠ ""
      · rw [if_pos hc]
        rcases hbad with h | h | h
        · exact absurd h hc.1
        · exact absurd h hc.2
        · rw [h]
      · rw [if_neg hc]
    rcases hts with h | h
    · rw [record_is_old, h]
      exact hleg
    · simp only [record_is_old, h]
      rw [if_neg (by simp)]
      exact hleg

/-- Claim C7 witness: a record with sentinel date/time is kept by the
cleanup with any cutoff, and a record with empty date/time and no
timestamp is not old for `update_archives`. -/
theorem c7_unparseable_retained_witness :
    (⟨some "Drogon", "i", "t", ⟨"A", "l"⟩, ⟨"B", "l"⟩, "Not Found", "Not Found", ["u"],
        none⟩ : MatchRec) ∈
      cleanup_old_matches
        [⟨some "Drogon", "i", "t", ⟨"A", "l"⟩, ⟨"B", "l"⟩, "Not Found", "Not Found", ["u"],
          none⟩] 0
    ∧ record_is_old
        ⟨some "Citadel", "i", "t", ⟨"C", "l"⟩, ⟨"D", "l"⟩, "", "", ["v"], none⟩ 0 0 = false := by
  constructor
  · exact c7_unparseable_retained.1 _ 0 _ (List.mem_singleton_self _)
      (Or.inr (Or.inr (Or.inl rfl)))
  · exact c7_unparseable_retained.2 _ 0 0 (Or.inl rfl) (Or.inl rfl)

/-- Claim C10: merging a new record into a matched existing record keeps
time, date, source name, source icon and API title unchanged, keeps the
team names, replaces a team logo only when the stored one was the
placeholder and the new one is real, and otherwise only replaces the
links list — by a shuffled strict superset that is exactly the union. -/
theorem c10_merge_frame (sh : List String → List String) (ex nm : MatchRec)
    (hsh : ∀ l : List String, (sh l).Perm l) :
    (mergeRecord sh ex nm).1.time = ex.time ∧
    (mergeRecord sh ex nm).1.date = ex.date ∧
    (mergeRecord sh ex nm).1.source_name = ex.source_name ∧
    (mergeRecord sh ex nm).1.source_icon_url = ex.source_icon_url ∧
    (mergeRecord sh ex nm).1.match_title_from_api = ex.match_title_from_api ∧
    (mergeRecord sh ex nm).1.team1.name = ex.team1.name ∧
    (mergeRecord sh ex nm).1.team2.name = ex.team2.name ∧
    ((mergeRecord sh ex nm).1.team1.logo_url = ex.team1.logo_url ∨
      (ex.team1.logo_url = DEFAULT_LOGO_URL ∧ nm.team1.logo_url ≠ DEFAULT_LOGO_URL ∧
        (mergeRecord sh ex nm).1.team1.logo_url = nm.team1.logo_url)) ∧
    ((mergeRecord sh ex nm).1.team2.logo_url = ex.team2.logo_url ∨
      (ex.team2.logo_url = DEFAULT_LOGO_URL ∧ nm.team2.logo_url ≠ DEFAULT_LOGO_URL ∧
        (mergeRecord sh ex nm).1.team2.logo_url = nm.team2.logo_url)) ∧
    ((mergeRecord sh ex nm).1.links = ex.links ∨
      (ex.links.toFinset ⊂ (mergeRecord sh ex nm).1.links.toFinset ∧
        (mergeRecord sh ex nm).1.links.toFinset = ex.links.toFinset ∪ nm.links.toFinset)) := by
  refine ⟨rfl, rfl, rfl, rfl, rfl, mergeRecord_team1_name sh ex nm,
    mergeRecord_team2_name sh ex nm, ?_, ?_, ?_⟩
  · rw [mergeRecord_team1_logo]
    by_cases hP : ex.team1.logo_url = DEFAULT_LOGO_URL ∧ nm.team1.logo_url ≠ DEFAULT_LOGO_URL
    · rw [if_pos hP]
      exact Or.inr ⟨hP.1, hP.2, rfl⟩
    · rw [if_neg hP]
      exact Or.inl rfl
  · rw [mergeRecord_team2_logo]
    by_cases hP : ex.team2.logo_url = DEFAULT_LOGO_URL ∧ nm.team2.logo_url ≠ DEFAULT_LOGO_URL
    · rw [if_pos hP]
      exact Or.inr ⟨hP.1, hP.2, rfl⟩
    · rw [if_neg hP]
      exact Or.inl rfl
  · rw [mergeRecord_links_eq]
    by_cases hP : ex.links.length < ((ex.links ++ nm.links).dedup).length
    · rw [if_pos hP]
      right
      have hfs : (sh ((ex.links ++ nm.links).dedup)).toFinset
          = ex.links.toFinset ∪ nm.links.toFinset := by
        apply Finset.ext
        intro x
        simp only [List.mem_toFinset, (hsh _).mem_iff, List.mem_dedup, List.mem_append,
          Finset.mem_union]
      have hcard : ex.links.toFinset.card
          < (sh ((ex.links ++ nm.links).dedup)).toFinset.card := by
        have h1 : ex.links.toFinset.card ≤ ex.links.length := List.toFinset_card_le _
        have h2 : (sh ((ex.links ++ nm.links).dedup)).toFinset.card
            = ((ex.links ++ nm.links).dedup).length := by
          have hnd : (sh ((ex.links ++ nm.links).dedup)).Nodup :=
            ((hsh _).nodup_iff).mpr (List.nodup_dedup _)
          rw [List.toFinset_card_of_nodup hnd, (hsh _).length_eq]
        omega
      refine ⟨?_, hfs⟩
      refine Finset.ssubset_def.mpr ⟨?_, ?_⟩
      · rw [hfs]
        exact Finset.subset_union_left
      · intro hba
        have hle := Finset.card_le_card hba
        omega
    · rw [if_neg hP]
      exact Or.inl rfl

/-- Claim C10 witness: concrete merge of a matched record — the frame
fields survive and the links grow to the union. -/
theorem c10_merge_frame_witness :
    (mergeRecord (fun l => l)
        ⟨some "Drogon", "ic", "ti", ⟨"H", DEFAULT_LOGO_URL⟩, ⟨"W", "real2"⟩, "10:00",
          "01-01-2030", ["a"], none⟩
        ⟨some "Drogon", "ic2", "ti2", ⟨"H", "real1"⟩, ⟨"W", DEFAULT_LOGO_URL⟩, "11:00",
          "02-01-2030", ["a", "b"], none⟩).1.time = "10:00"
    ∧ (mergeRecord (fun l => l)
        ⟨some "Drogon", "ic", "ti", ⟨"H", DEFAULT_LOGO_URL⟩, ⟨"W", "real2"⟩, "10:00",
          "01-01-2030", ["a"], none⟩
        ⟨some "Drogon", "ic2", "ti2", ⟨"H", "real1"⟩, ⟨"W", DEFAULT_LOGO_URL⟩, "11:00",
          "02-01-2030", ["a", "b"], none⟩).1.date = "01-01-2030" := by
  have h := c10_merge_frame (fun l => l)
    ⟨some "Drogon", "ic", "ti", ⟨"H", DEFAULT_LOGO_URL⟩, ⟨"W", "real2"⟩, "10:00",
      "01-01-2030", ["a"], none⟩
    ⟨some "Drogon", "ic2", "ti2", ⟨"H", "real1"⟩, ⟨"W", DEFAULT_LOGO_URL⟩, "11:00",
      "02-01-2030", ["a", "b"], none⟩
    (fun l => List.Perm.refl l)
  exact ⟨h.1, h.2.1⟩

/-- Claim C2: every identity key present in the persisted collection
before the merge either survives the Retention Cleaner — and then a
record with that key appears in the merge output — or is removed by the
cleaner; a persisted identity is never lost merely because the batch has
no record for it. -/
theorem c2_persisted_identity_survives (sh : List String → List String)
    (new_matches existing_matches : List MatchRec) (cutoff_us : Int)
    (out : List MatchRec) (nc uc : Nat)
    (h : merge_with_existing_data sh new_matches existing_matches cutoff_us
      = some (out, nc, uc)) :
    ∀ r ∈ existing_matches, ∀ k, matchKey? r = some k →
      r ∉ cleanup_old_matches existing_matches cutoff_us ∨
        ∃ r' ∈ out, matchKey? r' = some k := by
  rw [merge_with_existing_data] at h
  intro r hr k hk
  by_cases hc : r ∈ cleanup_old_matches existing_matches cutoff_us
  · right
    have hmem : k ∈ (buildLookup (cleanup_old_matches existing_matches cutoff_us)).map
        Prod.fst := buildLookup_key_covered hc hk
    exact mergeLoop_key_survives sh new_matches _ [] 0 0 out nc uc k
      (buildLookup_entryInv _) hmem h
  · exact Or.inl hc

/-- Claim C2 witness: an empty batch against a one-record store — the
persisted identity still appears in the output. -/
theorem c2_persisted_identity_survives_witness :
    (⟨some "Drogon", "i", "t", ⟨"A", "l"⟩, ⟨"B", "l"⟩, "Not Found", "Not Found", ["u"],
        none⟩ : MatchRec) ∉
      cleanup_old_matches
        [⟨some "Drogon", "i", "t", ⟨"A", "l"⟩, ⟨"B", "l"⟩, "Not Found", "Not Found", ["u"],
          none⟩] 0
    ∨ ∃ r' ∈ [(⟨some "Drogon", "i", "t", ⟨"A", "l"⟩, ⟨"B", "l"⟩, "Not Found", "Not Found",
        ["u"], none⟩ : MatchRec)],
        matchKey? r' = some ("Drogon", "A", "B", "Not Found") := by
  exact c2_persisted_identity_survives (fun l => l) []
    [⟨some "Drogon", "i", "t", ⟨"A", "l"⟩, ⟨"B", "l"⟩, "Not Found", "Not Found", ["u"], none⟩]
    0
    [⟨some "Drogon", "i", "t", ⟨"A", "l"⟩, ⟨"B", "l"⟩, "Not Found", "Not Found", ["u"], none⟩]
    0 0 (by decide) _ (List.mem_singleton_self _) ("Drogon", "A", "B", "Not Found") (by decide)

/-- Claim C8: a persisted record lacking `source_name` is excluded from
the lookup and dropped from the output, and its presence never makes the
merge fail — the merge succeeds whenever every batch record carries a
`source_name`, and every output record carries one. -/
theorem c8_legacy_excluded_no_failure (sh : List String → List String)
    (new_matches existing_matches : List MatchRec) (cutoff_us : Int)
    (hnew : ∀ nm ∈ new_matches, (matchKey? nm).isSome) :
    ∃ out nc uc,
      merge_with_existing_data sh new_matches existing_matches cutoff_us
        = some (out, nc, uc)
      ∧ (∀ r ∈ out, r.source_name.isSome)
      ∧ (∀ r ∈ existing_matches, r.source_name = none → r ∉ out) := by
  rw [merge_with_existing_data]
  rcases mergeLoop_success sh new_matches
      (buildLookup (cleanup_old_matches existing_matches cutoff_us)) [] 0 0 hnew
    with ⟨⟨out, nc, uc⟩, ho⟩
  have hks : ∀ r ∈ out, (matchKey? r).isSome :=
    mergeLoop_all_keyed sh new_matches _ [] 0 0 out nc uc (by simp)
      (buildLookup_entryInv _) ho
  have hsrc : ∀ r ∈ out, r.source_name.isSome := by
    intro r hr
    have hk := hks r hr
    rcases hs : r.source_name with _ | s
    · rw [matchKey?, hs] at hk
      simp at hk
    · rfl
  refine ⟨out, nc, uc, ho, hsrc, ?_⟩
  intro r _ hnone hmem
  have hsm := hsrc r hmem
  rw [hnone] at hsm
  simp at hsm

/-- Claim C8 witness: a legacy record (no `source_name`) in the store
does not make the merge fail. -/
theorem c8_legacy_excluded_no_failure_witness :
    merge_with_existing_data (fun l => l)
      [⟨some "Drogon", "i", "t4", ⟨"G", "l"⟩, ⟨"H", "l"⟩, "Not Found", "Not Found", ["y"],
        none⟩]
      [⟨none, "i", "legacy", ⟨"L1", "l"⟩, ⟨"L2", "l"⟩, "Not Found", "Not Found", ["z"],
        none⟩] 0 ≠ none := by
  obtain ⟨out, nc, uc, h1, -, -⟩ := c8_legacy_excluded_no_failure (fun l => l)
    [⟨some "Drogon", "i", "t4", ⟨"G", "l"⟩, ⟨"H", "l"⟩, "Not Found", "Not Found", ["y"],
      none⟩]
    [⟨none, "i", "legacy", ⟨"L1", "l"⟩, ⟨"L2", "l"⟩, "Not Found", "Not Found", ["z"],
      none⟩] 0 (by decide)
  rw [h1]
  simp

/-- Claim C6 counterexample: the Merge Engine keys on raw team-name
strings, not normalized ones.  Two batch records whose team names differ
only by case and surrounding whitespace have distinct raw keys, so both
are inserted, and the merged collection holds two distinct records with
the same normalized identity key `(source_name, normalized team1,
normalized team2, date)` — refuting the claim as stated. -/
theorem c6_counterexample :
    merge_with_existing_data (fun l => l)
      [⟨some "Drogon", "i", "t", ⟨"Arsenal", "l"⟩, ⟨"B", "l"⟩, "Not Found", "Not Found",
        ["a"], none⟩,
       ⟨some "Drogon", "i", "t", ⟨" arsenal", "l"⟩, ⟨"B", "l"⟩, "Not Found", "Not Found",
        ["b"], none⟩]
      [] 0
      = some ([⟨some "Drogon", "i", "t", ⟨"Arsenal", "l"⟩, ⟨"B", "l"⟩, "Not Found",
        "Not Found", ["a"], none⟩,
       ⟨some "Drogon", "i", "t", ⟨" arsenal", "l"⟩, ⟨"B", "l"⟩, "Not Found", "Not Found",
        ["b"], none⟩], 2, 0)
    ∧ normalizedKey ⟨some "Drogon", "i", "t", ⟨"Arsenal", "l"⟩, ⟨"B", "l"⟩, "Not Found",
        "Not Found", ["a"], none⟩
      = normalizedKey ⟨some "Drogon", "i", "t", ⟨" arsenal", "l"⟩, ⟨"B", "l"⟩, "Not Found",
        "Not Found", ["b"], none⟩
    ∧ (⟨some "Drogon", "i", "t", ⟨"Arsenal", "l"⟩, ⟨"B", "l"⟩, "Not Found", "Not Found",
        ["a"], none⟩ : MatchRec)
      ≠ ⟨some "Drogon", "i", "t", ⟨" arsenal", "l"⟩, ⟨"B", "l"⟩, "Not Found", "Not Found",
        ["b"], none⟩ := by
  exact ⟨by decide, by decide, by decide⟩

/-- Claim C6 (amended): when no two records of the batch share a raw
identity key, the merge output contains no two records with the same raw
identity key `(source_name, team1.name, team2.name, date)`. -/
theorem c6_no_duplicate_raw_keys (sh : List String → List String)
    (new_matches existing_matches : List MatchRec) (cutoff_us : Int)
    (out : List MatchRec) (nc uc : Nat)
    (hbatch : (new_matches.filterMap matchKey?).Nodup)
    (h : merge_with_existing_data sh new_matches existing_matches cutoff_us
      = some (out, nc, uc)) :
    (out.filterMap matchKey?).Nodup := by
  rw [merge_with_existing_data] at h
  exact mergeLoop_keys_nodup sh new_matches _ [] 0 0 out nc uc
    (buildLookup_entryInv _) (buildLookup_keys_nodup _) hbatch
    (by simp) (by simp) (by simp) h

/-- Claim C6 witness: a concrete merge whose output key list is
duplicate-free. -/
theorem c6_no_duplicate_raw_keys_witness :
    (([⟨some "Drogon", "i", "t3", ⟨"E", "l"⟩, ⟨"F", "l"⟩, "Not Found", "Not Found", ["x"],
        none⟩] : List MatchRec).filterMap matchKey?).Nodup := by
  exact c6_no_duplicate_raw_keys (fun l => l)
    [⟨some "Drogon", "i", "t3", ⟨"E", "l"⟩, ⟨"F", "l"⟩, "Not Found", "Not Found", ["x"],
      none⟩] [] 0
    [⟨some "Drogon", "i", "t3", ⟨"E", "l"⟩, ⟨"F", "l"⟩, "Not Found", "Not Found", ["x"],
      none⟩] 1 0 (by decide) (by decide)

/-- Claim C5 counterexample: with a batch holding two records under the
same identity key but different links, the second identical run is not
idempotent — it reports one new and one updated record and changes the
collection. -/
theorem c5_counterexample :
    merge_with_existing_data (fun l => l)
      [⟨some "Drogon", "i", "t", ⟨"A", "l"⟩, ⟨"B", "l"⟩, "Not Found", "Not Found", ["a"],
        none⟩,
       ⟨some "Drogon", "i", "t", ⟨"A", "l"⟩, ⟨"B", "l"⟩, "Not Found", "Not Found", ["b"],
        none⟩]
      [] 0
      = some ([⟨some "Drogon", "i", "t", ⟨"A", "l"⟩, ⟨"B", "l"⟩, "Not Found", "Not Found",
          ["a"], none⟩,
        ⟨some "Drogon", "i", "t", ⟨"A", "l"⟩, ⟨"B", "l"⟩, "Not Found", "Not Found", ["b"],
          none⟩], 2, 0)
    ∧ merge_with_existing_data (fun l => l)
      [⟨some "Drogon", "i", "t", ⟨"A", "l"⟩, ⟨"B", "l"⟩, "Not Found", "Not Found", ["a"],
        none⟩,
       ⟨some "Drogon", "i", "t", ⟨"A", "l"⟩, ⟨"B", "l"⟩, "Not Found", "Not Found", ["b"],
        none⟩]
      [⟨some "Drogon", "i", "t", ⟨"A", "l"⟩, ⟨"B", "l"⟩, "Not Found", "Not Found", ["a"],
        none⟩,
       ⟨some "Drogon", "i", "t", ⟨"A", "l"⟩, ⟨"B", "l"⟩, "Not Found", "Not Found", ["b"],
        none⟩] 0
      = some ([⟨some "Drogon", "i", "t", ⟨"A", "l"⟩, ⟨"B", "l"⟩, "Not Found", "Not Found",
          ["b", "a"], none⟩,
        ⟨some "Drogon", "i", "t", ⟨"A", "l"⟩, ⟨"B", "l"⟩, "Not Found", "Not Found", ["b"],
          none⟩], 1, 1)
    ∧ (⟨some "Drogon", "i", "t", ⟨"A", "l"⟩, ⟨"B", "l"⟩, "Not Found", "Not Found", ["a"],
        none⟩ : MatchRec) ∉
      [(⟨some "Drogon", "i", "t", ⟨"A", "l"⟩, ⟨"B", "l"⟩, "Not Found", "Not Found",
          ["b", "a"], none⟩ : MatchRec),
        ⟨some "Drogon", "i", "t", ⟨"A", "l"⟩, ⟨"B", "l"⟩, "Not Found", "Not Found", ["b"],
          none⟩] := by
  exact ⟨by decide, by decide, by decide⟩

/-- Claim C5 (amended): if the batch contains no two records with the
same identity key and the first run's output is untouched by the
Retention Cleaner, then re-running the merge with the identical batch
returns the identical collection with zero new and zero updated
records. -/
theorem c5_merge_idempotent (sh : List String → List String)
    (new_matches existing_matches : List MatchRec) (cutoff_us : Int)
    (out : List MatchRec) (nc uc : Nat)
    (hsh : ∀ l : List String, (sh l).Perm l)
    (hbatch : (new_matches.filterMap matchKey?).Nodup)
    (h1 : merge_with_existing_data sh new_matches existing_matches cutoff_us
      = some (out, nc, uc))
    (hstable : cleanup_old_matches out cutoff_us = out) :
    merge_with_existing_data sh new_matches out cutoff_us = some (out, 0, 0) := by
  rw [merge_with_existing_data] at h1
  rw [merge_with_existing_data, hstable]
  exact mergeLoop_idem sh hsh new_matches _ out nc uc (buildLookup_entryInv _)
    (buildLookup_keys_nodup _) hbatch h1

/-- Claim C5 witness: a one-record batch merged twice — the second run
returns the same collection with zero counts. -/
theorem c5_merge_idempotent_witness :
    merge_with_existing_data (fun l => l)
      [⟨some "Drogon", "i", "t2", ⟨"C", "l"⟩, ⟨"D", "l"⟩, "Not Found", "Not Found", ["w"],
        none⟩]
      [⟨some "Drogon", "i", "t2", ⟨"C", "l"⟩, ⟨"D", "l"⟩, "Not Found", "Not Found", ["w"],
        none⟩] 0
      = some ([⟨some "Drogon", "i", "t2", ⟨"C", "l"⟩, ⟨"D", "l"⟩, "Not Found", "Not Found",
        ["w"], none⟩], 0, 0) := by
  exact c5_merge_idempotent (fun l => l)
    [⟨some "Drogon", "i", "t2", ⟨"C", "l"⟩, ⟨"D", "l"⟩, "Not Found", "Not Found", ["w"],
      none⟩] [] 0
    [⟨some "Drogon", "i", "t2", ⟨"C", "l"⟩, ⟨"D", "l"⟩, "Not Found", "Not Found", ["w"],
      none⟩] 1 0 (fun l => List.Perm.refl l) (by decide) (by decide) (by decide)

/-- Claim C1 counterexample: `update_archives` in `winterfell_scribe.py`
replaces the stored record wholesale when the batch resends an identity
(`archives[m_id] = record`), so a previously persisted link is dropped:
identity `m1` had link `"a"`, the batch resends `m1` with only `"b"`, and
after the merge the stored links are exactly `["b"]`. -/
theorem c1_counterexample :
    update_archives
      [("m1", ⟨some "The Citadel", "ic", "Old vs New", ⟨"X", "lx"⟩, ⟨"Y", "ly"⟩, "10:00",
        "01-01-2030", ["a"], some 500⟩)]
      [("m1", ⟨some "The Citadel", "ic", "Old vs New", ⟨"X", "lx"⟩, ⟨"Y", "ly"⟩, "10:00",
        "01-01-2030", ["b"], some 500⟩)]
      1000 0
      = [⟨some "The Citadel", "ic", "Old vs New", ⟨"X", "lx"⟩, ⟨"Y", "ly"⟩, "10:00",
        "01-01-2030", ["b"], some 500⟩]
    ∧ "a" ∈ (⟨some "The Citadel", "ic", "Old vs New", ⟨"X", "lx"⟩, ⟨"Y", "ly"⟩, "10:00",
        "01-01-2030", ["a"], some 500⟩ : MatchRec).links
    ∧ "a" ∉ (⟨some "The Citadel", "ic", "Old vs New", ⟨"X", "lx"⟩, ⟨"Y", "ly"⟩, "10:00",
        "01-01-2030", ["b"], some 500⟩ : MatchRec).links := by
  exact ⟨by decide, by decide, by decide⟩

/-- Claim C1 (amended): for `merge_with_existing_data` in
`football_scraper.py`, provided the cleaned persisted collection and the
batch each have duplicate-free identity keys: no link of a record that
survives the Retention Cleaner is dropped — its key reappears in the
output with a link superset — and a matched record (with duplicate-free
stored links) ends with links equal to the union of the stored and the
batch links.  (`update_archives` in `winterfell_scribe.py` instead
replaces the record wholesale; see the counterexample.) -/
theorem c1_links_union_preserved (sh : List String → List String)
    (new_matches existing_matches : List MatchRec) (cutoff_us : Int)
    (out : List MatchRec) (nc uc : Nat)
    (hsh : ∀ l : List String, (sh l).Perm l)
    (h : merge_with_existing_data sh new_matches existing_matches cutoff_us
      = some (out, nc, uc))
    (hex : ((cleanup_old_matches existing_matches cutoff_us).filterMap matchKey?).Nodup)
    (hbatch : (new_matches.filterMap matchKey?).Nodup) :
    (∀ ex' ∈ cleanup_old_matches existing_matches cutoff_us, ∀ k, matchKey? ex' = some k →
      ∃ r ∈ out, matchKey? r = some k ∧ ∀ x ∈ ex'.links, x ∈ r.links)
    ∧ (∀ ex' ∈ cleanup_old_matches existing_matches cutoff_us,
        ∀ nm ∈ new_matches, ∀ k, matchKey? ex' = some k → matchKey? nm = some k →
        ex'.links.Nodup →
        ∃ r ∈ out, ∀ x, x ∈ r.links ↔ (x ∈ ex'.links ∨ x ∈ nm.links)) := by
  rw [merge_with_existing_data] at h
  constructor
  · intro ex' hex' k hk
    have hq : (k, ex') ∈ buildLookup (cleanup_old_matches existing_matches cutoff_us) := by
      rw [buildLookup_eq_keyedList hex]
      exact List.mem_filterMap.mpr ⟨ex', hex', by rw [matchKey?] at hk ⊢; rw [hk]; rfl⟩
    exact mergeLoop_entry_links sh (fun l x hx => (hsh l).mem_iff.mpr hx) new_matches _
      [] 0 0 out nc uc (buildLookup_entryInv _) (buildLookup_keys_nodup _) h (k, ex') hq
  · intro ex' hex' nm hnm k hk hknm hndl
    have hfind : dictFind? (buildLookup (cleanup_old_matches existing_matches cutoff_us)) k
        = some ex' := by
      rw [buildLookup_eq_keyedList hex]
      exact dictFind?_keyedList hex hex' hk
    refine ⟨(mergeRecord sh ex' nm).1, ?_, mergeRecord_links_iff sh ex' nm hsh hndl⟩
    exact mergeLoop_claimed_mem sh new_matches _ [] 0 0 out nc uc k nm ex' hbatch hnm
      hknm hfind h

/-- Claim C1 witness: a stored record with link `"a"` matched by a batch
record with links `["a", "b"]` — the output record keeps `"a"`. -/
theorem c1_links_union_preserved_witness :
    ∃ r ∈ [(⟨some "Drogon", "i", "t", ⟨"A", "l"⟩, ⟨"B", "l"⟩, "Not Found", "Not Found",
        ["a", "b"], none⟩ : MatchRec)],
      matchKey? r = some ("Drogon", "A", "B", "Not Found")
      ∧ ∀ x ∈ (⟨some "Drogon", "i", "t", ⟨"A", "l"⟩, ⟨"B", "l"⟩, "Not Found", "Not Found",
          ["a"], none⟩ : MatchRec).links, x ∈ r.links := by
  have h := c1_links_union_preserved (fun l => l)
    [⟨some "Drogon", "i", "t", ⟨"A", "l"⟩, ⟨"B", "l"⟩, "Not Found", "Not Found", ["a", "b"],
      none⟩]
    [⟨some "Drogon", "i", "t", ⟨"A", "l"⟩, ⟨"B", "l"⟩, "Not Found", "Not Found", ["a"],
      none⟩] 0
    [⟨some "Drogon", "i", "t", ⟨"A", "l"⟩, ⟨"B", "l"⟩, "Not Found", "Not Found", ["a", "b"],
      none⟩] 0 1 (fun l => List.Perm.refl l) (by decide) (by decide) (by decide)
  exact h.1 _ (by decide) ("Drogon", "A", "B", "Not Found") (by decide)
